import Mathlib

/-!
Verification of the continuous-batching inference engine core against its
specification.  The development shallowly embeds the relevant C++ sources:

* the speculative-decoding coordinator
  (`ContinuousBatchingPipeline::SpeculativeDecodingImpl` in
  src/src/cpp/src/utils.hpp): KV-cache split, tokenizer-equality gate,
  per-step metrics, `add_request` / `generate` parameter flow and validation;
* the tokenizer shared-library lookup (`get_openvino_tokenizer_path`);
* the paged-attention tensor packing (`ModelRunner::forward` in
  src/text_generation/.../continuous_batching/model_runner.hpp);
* the stream reconstruction `GenerationHandle::read_all`
  (src/text_generation/.../library/src/generation_handle.cpp).

Machine floats of the source are modelled exactly over the rationals; the
cumulative log probability carried by generation outputs is only ever copied
by the embedded code, so it is modelled by an integer payload.  C++
unordered_map values are modelled by association lists with nodup keys,
processed in list order (the per-sequence properties proved below do not
depend on the iteration order).
-/

/-! ## Speculative decoding coordinator: data model -/

namespace SpecCoord

/-- Decoding mode selected by the sampling parameters (spec section 3,
SamplingParams).  The source exposes it through the predicates
is_greedy_decoding and is_multinomial of ov::genai::GenerationConfig. -/
inductive DecodingMode
  | greedy
  | multinomial
  | beam
deriving DecidableEq, Repr

/-- Sampling parameters of one request, restricted to the fields the
coordinator code reads: max_new_tokens (metrics), ignore_eos (forced for the
draft pipeline), the decoding mode (streamer gate), num_return_sequences
(result assembly) and the LoRA adapters value (compared for equality between
requests; modelled as an opaque natural). -/
structure GenerationConfig where
  max_new_tokens : ℕ
  ignore_eos : Bool
  mode : DecodingMode
  num_return_sequences : ℕ
  adapters : ℕ
deriving DecidableEq, Repr

instance : Inhabited GenerationConfig :=
  ⟨{ max_new_tokens := 30, ignore_eos := false, mode := DecodingMode.greedy,
     num_return_sequences := 3, adapters := 0 }⟩

/-- mode check used by the streamer gate in generate. -/
def GenerationConfig.is_greedy_decoding (c : GenerationConfig) : Bool :=
  c.mode == DecodingMode.greedy

/-- mode check used by the streamer gate in generate. -/
def GenerationConfig.is_multinomial (c : GenerationConfig) : Bool :=
  c.mode == DecodingMode.multinomial

/-! ### KV-cache split (constructor, draft scheduler unspecified)

Source: SpeculativeDecodingImpl::SpeculativeDecodingImpl, the branch guarded
by is_draft_scheduler_undefined.  The float arithmetic
(k = draft_hidden / (main_hidden + draft_hidden), std::ceil) is modelled
exactly over the rationals. -/

/-- KV-cache split between the main and the draft engine.  Mirrors:
k = draft/(main+draft); main_cache = ceil(cache_size * (1-k));
draft_cache = cache_size - main_cache; then the zero-remainder adjustment. -/
def split_kv_cache (cache_size main_hidden draft_hidden : ℕ) : ℕ × ℕ :=
  let k : ℚ := (draft_hidden : ℚ) / ((main_hidden : ℚ) + (draft_hidden : ℚ))
  let main_cache_size : ℕ := ⌈(cache_size : ℚ) * (1 - k)⌉₊
  let draft_cache_size : ℕ := cache_size - main_cache_size
  if draft_cache_size = 0 ∧ 0 < main_cache_size then
    (main_cache_size - (if 1 < main_cache_size then 1 else 0), 1)
  else
    (main_cache_size, draft_cache_size)

/-- The claim-side formula for the main cache size:
ceil(cache_size * (1 - k)) with k = draft_hidden / (main_hidden + draft_hidden)
computed exactly. -/
def main_cache_formula (cache_size main_hidden draft_hidden : ℕ) : ℕ :=
  ⌈(cache_size : ℚ) *
    (1 - (draft_hidden : ℚ) / ((main_hidden : ℚ) + (draft_hidden : ℚ)))⌉₊

/-! ### Tokenizer equality gate (constructor) -/

/-- The fields of a tokenizer the coordinator constructor inspects:
the shape of input_ids obtained by encoding the fixed canary string, and the
three special-token ids. -/
structure TokenizerModel where
  canary_shape : List ℕ
  eos_token_id : ℤ
  bos_token_id : ℤ
  pad_token_id : ℤ
deriving DecidableEq, Repr

/-- Source: are_tokenizers_equal.  Encodes the canary string through both
tokenizers and compares the resulting shapes, then the EOS, BOS and PAD ids. -/
def are_tokenizers_equal (lhs rhs : TokenizerModel) : Bool :=
  lhs.canary_shape == rhs.canary_shape && lhs.eos_token_id == rhs.eos_token_id &&
  lhs.bos_token_id == rhs.bos_token_id && lhs.pad_token_id == rhs.pad_token_id

/-- Outcome of the tokenizer check the constructor performs
(OPENVINO_ASSERT(are_tokenizers_equal(...))). -/
inductive CtorOutcome
  | ok
  | tokenizer_mismatch
deriving DecidableEq, Repr

/-- The constructor's tokenizer-equality gate: construction proceeds only
when are_tokenizers_equal holds, otherwise it raises. -/
def ctor_tokenizer_check (main_tok draft_tok : TokenizerModel) : CtorOutcome :=
  if are_tokenizers_equal main_tok draft_tok then CtorOutcome.ok
  else CtorOutcome.tokenizer_mismatch

/-! ### Per-step metrics (SpeculativeDecodingImpl::step, metrics loop)

The SpeculativeDecodingMetrics class itself is not part of the surveyed
sources; its two update operations are modelled from the spec. -/

/-- Source: UpdateRequestResult (inserted / removed candidate token counts
per request, produced by update_request on the two pipelines). -/
structure UpdateRequestResult where
  inserted_tokens_cnt : ℕ
  removed_tokens_cnt : ℕ
deriving DecidableEq, Repr

/-- Modelled from the spec: SpeculativeDecodingMetrics is absent from the
surveyed sources.  Per the spec metrics section, update_acceptance_rate
records the value passed for the request (modelled as the history of recorded
values, most recent first) and update_draft_accepted_tokens aggregates the
count per request. -/
structure SDMetrics where
  acceptance_rate : ℕ → List ℚ
  draft_accepted_tokens : ℕ → ℕ

/-- records an acceptance-rate sample for a request. -/
def SDMetrics.update_acceptance_rate (m : SDMetrics) (request_id : ℕ) (value : ℚ) :
    SDMetrics :=
  { m with acceptance_rate :=
      fun i => if i = request_id then value :: m.acceptance_rate request_id
               else m.acceptance_rate i }

/-- aggregates accepted draft tokens for a request. -/
def SDMetrics.update_draft_accepted_tokens (m : SDMetrics) (request_id : ℕ) (n : ℕ) :
    SDMetrics :=
  { m with draft_accepted_tokens :=
      fun i => if i = request_id then m.draft_accepted_tokens request_id + n
               else m.draft_accepted_tokens i }

/-- One turn of the metrics loop at the end of SpeculativeDecodingImpl::step:
requests whose inserted count is zero (prompt phase) are skipped, otherwise
acceptance_rate = 1 - removed/inserted is recorded scaled by 100, and the
accepted-token count grows by inserted - removed. -/
def step_update_metrics_one (info : ℕ → UpdateRequestResult) (m : SDMetrics)
    (request_id : ℕ) : SDMetrics :=
  let u := info request_id
  if u.inserted_tokens_cnt = 0 then m
  else
    let acceptance_rate : ℚ :=
      1 - (u.removed_tokens_cnt : ℚ) / (u.inserted_tokens_cnt : ℚ)
    (m.update_acceptance_rate request_id (acceptance_rate * 100)).update_draft_accepted_tokens
      request_id (u.inserted_tokens_cnt - u.removed_tokens_cnt)

/-- The metrics loop of step over the draft requests generated this step. -/
def step_update_metrics (m : SDMetrics) (draft_request_ids : List ℕ)
    (info : ℕ → UpdateRequestResult) : SDMetrics :=
  draft_request_ids.foldl (step_update_metrics_one info) m

/-! ### Request queues, add_request and generate -/

/-- A request as received by one of the two wrapped pipelines: the id, the
input token payload and the sampling parameters it was given. -/
structure PipelineRequest where
  request_id : ℕ
  input : List ℤ
  params : GenerationConfig
deriving DecidableEq, Repr

/-- The part of the coordinator state the queue-level claims are about: the
requests each wrapped pipeline has received, in order. -/
structure SDState where
  main_requests : List PipelineRequest
  draft_requests : List PipelineRequest
deriving DecidableEq, Repr

/-- Source: SpeculativeDecodingImpl::add_request (both overloads share this
shape; the input payload stands for the tensor or the prompt).  The draft
pipeline receives a copy of the caller's sampling params with ignore_eos
forced to true; the main pipeline receives them unchanged. -/
def sd_add_request (st : SDState) (request_id : ℕ) (input : List ℤ)
    (sampling_params : GenerationConfig) : SDState :=
  let draft_sampling_params := { sampling_params with ignore_eos := true }
  { st with
    draft_requests := st.draft_requests ++
      [⟨request_id, input, draft_sampling_params⟩],
    main_requests := st.main_requests ++
      [⟨request_id, input, sampling_params⟩] }

/-- An input tensor as generate sees it: the leading shape entry
(get_shape().at(0), asserted to be 1) and the token payload. -/
structure TensorModel where
  batch_dim : ℕ
  token_ids : List ℤ
deriving DecidableEq, Repr

/-- The streamer argument of generate: monostate, a streamer object, or a
callback (which the source wraps into a TextCallbackStreamer object, so the
resulting pointer is null exactly in the monostate case). -/
inductive Streamer
  | absent
  | object
  | callback
deriving DecidableEq, Repr

/-- Errors generate can raise, in the order its assertions appear. -/
inductive GenError
  | busy
  | size_mismatch
  | adapters_mismatch
  | streaming_unsupported
  | batched_tensor
deriving DecidableEq, Repr

/-- Source: the loop asserting that consecutive requests carry the same LoRA
adapters value. -/
def adapters_consistent : List GenerationConfig → Bool
  | p :: q :: rest => (p.adapters == q.adapters) && adapters_consistent (q :: rest)
  | _ => true

/-- Source: the streamer assertion of generate.  A non-null streamer is
accepted only with batch size 1 and greedy or multinomial decoding (the inner
conjunction short-circuits, so sampling_params[0] is read only when the batch
size is 1). -/
def streamer_check (streamer : Streamer) (num_inputs : ℕ)
    (sampling_params : List GenerationConfig) : Bool :=
  match streamer with
  | Streamer.absent => true
  | _ =>
    num_inputs == 1 &&
      ((sampling_params.headD default).is_greedy_decoding ||
       (sampling_params.headD default).is_multinomial)

/-- One output of a finished generation as consumed by generate's result
assembly (GenerationOutput of the openvino.genai library: generated ids and
a score). -/
structure GenerationOutputSD where
  generated_ids : List ℤ
  score : ℚ
deriving DecidableEq, Repr

/-- Source: EncodedGenerationResult, restricted to the assembled fields. -/
structure EncodedGenerationResult where
  m_request_id : ℕ
  m_generation_ids : List (List ℤ)
  m_scores : List ℚ
deriving DecidableEq, Repr

/-- insertion step for sorting generation outputs by descending score,
modelling std::sort with the comparator r1.score > r2.score. -/
def insert_by_score (x : GenerationOutputSD) :
    List GenerationOutputSD → List GenerationOutputSD
  | [] => [x]
  | y :: ys => if y.score < x.score then x :: y :: ys else y :: insert_by_score x ys

/-- sorts generation outputs by descending score. -/
def sort_by_score_desc (l : List GenerationOutputSD) : List GenerationOutputSD :=
  l.foldr insert_by_score []

/-- Source: the result-assembly loop at the end of generate.  Note the
constant assignment result.m_request_id = 1 taken verbatim from the source. -/
def assemble_result (sampling_params_i : GenerationConfig)
    (generation_outputs : List GenerationOutputSD) : EncodedGenerationResult :=
  let sorted := sort_by_score_desc generation_outputs
  let num_outputs := min sampling_params_i.num_return_sequences sorted.length
  { m_request_id := 1,
    m_generation_ids := (sorted.take num_outputs).map GenerationOutputSD.generated_ids,
    m_scores := (sorted.take num_outputs).map GenerationOutputSD.score }

/-- results of generate for all generation handles; the outputs function
abstracts what read_all on the i-th main generation handle returned after the
step loop finished. -/
def sd_generate_results (sampling_params : List GenerationConfig)
    (outputs : ℕ → List GenerationOutputSD) : List EncodedGenerationResult :=
  (List.range sampling_params.length).map
    (fun i => assemble_result (sampling_params.getD i default) (outputs i))

/-- Source: the add-request loop of generate.  Requests are added with
request_id equal to the loop index; each iteration first asserts the tensor
is unbatched, then adds to the main pipeline with the caller's params and to
the draft pipeline with ignore_eos forced to true.  On a failing assertion
the requests already added remain queued. -/
def add_requests_loop (st : SDState) (request_id : ℕ) :
    List (TensorModel × GenerationConfig) → SDState × Option GenError
  | [] => (st, none)
  | (t, p) :: rest =>
    if t.batch_dim ≠ 1 then (st, some GenError.batched_tensor)
    else
      let st1 := { st with
        main_requests := st.main_requests ++
          [({ request_id := request_id, input := t.token_ids, params := p } :
            PipelineRequest)] }
      let draft_params := { p with ignore_eos := true }
      let st2 := { st1 with
        draft_requests := st1.draft_requests ++
          [({ request_id := request_id, input := t.token_ids,
              params := draft_params } : PipelineRequest)] }
      add_requests_loop st2 (request_id + 1) rest

/-- Source: SpeculativeDecodingImpl::generate.  The validation chain runs in
source order (busy check, size check, adapters check, streamer check), then
the add-request loop; the step loop is abstracted by the outputs function
feeding the result assembly.  The returned state is the coordinator state
after the call (unchanged whenever a pre-loop assertion fails). -/
def sd_generate (st : SDState) (has_non_finished : Bool)
    (input_ids : List TensorModel) (sampling_params : List GenerationConfig)
    (streamer : Streamer) (outputs : ℕ → List GenerationOutputSD) :
    SDState × Except GenError (List EncodedGenerationResult) :=
  if has_non_finished then (st, Except.error GenError.busy)
  else if input_ids.length ≠ sampling_params.length then
    (st, Except.error GenError.size_mismatch)
  else if adapters_consistent sampling_params = false then
    (st, Except.error GenError.adapters_mismatch)
  else if streamer_check streamer input_ids.length sampling_params = false then
    (st, Except.error GenError.streaming_unsupported)
  else
    match add_requests_loop st 0 (input_ids.zip sampling_params) with
    | (st1, some e) => (st1, Except.error e)
    | (st1, none) => (st1, Except.ok (sd_generate_results sampling_params outputs))

end SpecCoord

/-! ## Tokenizer shared-library lookup

Source: get_openvino_tokenizer_path and its string helpers (split,
is_absolute_path, join_path, is_path_escaped).  Strings are modelled as
character lists; the filesystem existence test and the environment are
abstract parameters (std::filesystem::exists and std::getenv; an unset
variable is modelled by the empty value, matching the code's empty-value
skip).  The filesystem queries of the source that may throw are modelled as
total, which covers the claim's scenario (the library simply absent). -/

namespace TokenizerPath

/-- helper of is_path_escaped and join_path: does the needle occur at the
start of the haystack. -/
def leads : List Char → List Char → Bool
  | [], _ => true
  | _ :: _, [] => false
  | a :: as, b :: bs => a == b && leads as bs

/-- position of the first occurrence of the needle in the haystack
(std::string::find; none plays npos). -/
def str_find (needle : List Char) : List Char → Option ℕ
  | [] => if leads needle [] then some 0 else none
  | c :: t =>
    if leads needle (c :: t) then some 0
    else (str_find needle t).map (fun i => i + 1)

/-- containment test (find different from npos). -/
def str_contains (hay needle : List Char) : Bool :=
  (str_find needle hay).isSome

/-- Source: is_absolute_path — nonempty and starting with a slash. -/
def is_absolute_path : List Char → Bool
  | [] => false
  | c :: _ => c == '/'

/-- Source: the body of the getline-based split loop.  A trailing delimiter
produces no empty trailing item, matching std::getline failing at eof. -/
def split_go (delim : Char) : List Char → List Char → List (List Char)
  | [], acc => [acc.reverse]
  | c :: rest, acc =>
    if c == delim then
      acc.reverse :: (if rest.isEmpty then [] else split_go delim rest [])
    else split_go delim rest (c :: acc)

/-- Source: split — cut a string at every delimiter occurrence. -/
def split_on (delim : Char) (s : List Char) : List (List Char) :=
  if s.isEmpty then [] else split_go delim s []

/-- Source: one folding step of join_path. -/
def join_one (joined seg : List Char) : List Char :=
  if joined.isEmpty then seg
  else if is_absolute_path seg then
    if joined.getLast? == some '/' then joined ++ seg.tail else joined ++ seg
  else
    (if joined.getLast? == some '/' then joined else joined ++ ['/']) ++ seg

/-- Source: join_path over the given segments. -/
def join_path (segments : List (List Char)) : List Char :=
  segments.foldl join_one []

/-- the needle "../" of is_path_escaped. -/
def dotdot_slash : List Char := ['.', '.', '/']

/-- the needle "/.." of is_path_escaped. -/
def slash_dotdot : List Char := ['/', '.', '.']

/-- the needle "/../" of is_path_escaped. -/
def slash_dotdot_slash : List Char := ['/', '.', '.', '/']

/-- Source: is_path_escaped — an escape sequence at the start, at the end, or
enclosed in slashes anywhere. -/
def is_path_escaped (path : List Char) : Bool :=
  (str_find dotdot_slash path == some 0) ||
  (match str_find slash_dotdot path with
   | some r => r == path.length - 3
   | none => false) ||
  str_contains path slash_dotdot_slash

/-- the constant LIB_NAME = "libopenvino_tokenizers.so". -/
def lib_name : List Char :=
  ['l', 'i', 'b', 'o', 'p', 'e', 'n', 'v', 'i', 'n', 'o', '_',
   't', 'o', 'k', 'e', 'n', 'i', 'z', 'e', 'r', 's', '.', 's', 'o']

/-- the environment variable name LD_PRELOAD. -/
def ld_preload : List Char :=
  ['L', 'D', '_', 'P', 'R', 'E', 'L', 'O', 'A', 'D']

/-- the environment variable name LD_LIBRARY_PATH. -/
def ld_library_path : List Char :=
  ['L', 'D', '_', 'L', 'I', 'B', 'R', 'A', 'R', 'Y', '_',
   'P', 'A', 'T', 'H']

/-- Source: the inner loop over the directories of one environment variable:
an escaped entry aborts the whole lookup with an empty string, otherwise the
directory joined with LIB_NAME is probed for existence. -/
def search_env_paths (fs_exists_at : List Char → Bool) :
    List (List Char) → Option (List Char)
  | [] => none
  | p :: rest =>
    if is_path_escaped p then some []
    else
      let candidate := join_path [p, lib_name]
      if fs_exists_at candidate then some candidate
      else search_env_paths fs_exists_at rest

/-- Source: the outer loop over the search order LD_PRELOAD, LD_LIBRARY_PATH;
an empty environment value is skipped. -/
def search_env_vars (fs_exists_at : List Char → Bool)
    (env : List Char → List Char) : List (List Char) → Option (List Char)
  | [] => none
  | v :: rest =>
    let env_val := env v
    if env_val.isEmpty then search_env_vars fs_exists_at env rest
    else
      match search_env_paths fs_exists_at (split_on ':' env_val) with
      | some r => some r
      | none => search_env_vars fs_exists_at env rest

/-- Source: get_openvino_tokenizer_path.  An escaped input path yields the
empty string; an empty input path is replaced by cwd joined with LIB_NAME; a
path not containing LIB_NAME gets it appended; the resulting path is probed,
then the environment directories; when everything fails the function returns
the bare LIB_NAME default. -/
def get_openvino_tokenizer_path (fs_exists_at : List Char → Bool)
    (env : List Char → List Char) (cwd : List Char)
    (input_path : List Char) : List Char :=
  if is_path_escaped input_path then []
  else
    let p1 := if input_path.isEmpty then join_path [cwd, lib_name] else input_path
    let p2 := if str_contains p1 lib_name then p1 else join_path [p1, lib_name]
    if fs_exists_at p2 then p2
    else
      match search_env_vars fs_exists_at env [ld_preload, ld_library_path] with
      | some r => r
      | none => lib_name

end TokenizerPath

/-! ## ModelRunner::forward — slot mapping

Source: the tensor-packing loops of ModelRunner::forward.  The forward pass
flattens every scheduled token of every running sequence of every scheduled
group into one batch dimension; for each token at logical position p it
writes slot_mapping = BLOCK_SIZE * block_table[p / BLOCK_SIZE] + p % BLOCK_SIZE
at the token's flat batch index.  The writes through the strided raw pointer
are modelled by positional writes into a list preallocated at batch_size. -/

namespace ModelRunner

/-- The per-group data the packing loop reads: the ids of the running
sequences (get_running_sequences), the number of tokens the scheduler runs
for the group this step, and the number of tokens already processed (the
first logical position written this step). -/
structure SequenceGroup where
  running_sequence_ids : List ℕ
  num_scheduled_tokens : ℕ
  num_processed_tokens : ℕ
deriving DecidableEq, Repr

instance : Inhabited SequenceGroup := ⟨⟨[], 0, 0⟩⟩

/-- Source: Scheduler::Output — the scheduled group ids and the per-sequence
block tables (each block represented by its physical index, get_index()). -/
structure SchedulerOutput where
  scheduled_sequence_groups_ids : List ℕ
  block_tables : ℕ → List ℕ

/-- Source, lines computing slot_id: position_id / BLOCK_SIZE indexes the
sequence's block table, position_id % BLOCK_SIZE is the in-block offset. -/
def slot_for (block_size : ℕ) (kv_blocks : List ℕ) (position_id : ℕ) : ℤ :=
  ((block_size * kv_blocks.getD (position_id / block_size) 0
    + position_id % block_size : ℕ) : ℤ)

/-- the inner token loop of one running sequence: writes the slots of the
num_scheduled tokens, starting at logical position num_processed, at flat
indices off, off+1, ... (slot_mapping_data[token_id] through the strided
pointer). -/
def write_sequence_slots (block_size : ℕ) (kv_blocks : List ℕ)
    (num_processed num_scheduled off : ℕ) (arr : List ℤ) : List ℤ :=
  (List.range num_scheduled).foldl
    (fun a token_id =>
      a.set (off + token_id) (slot_for block_size kv_blocks (num_processed + token_id)))
    arr

/-- the loop over the running sequences of one scheduled group; the flat
offset advances by num_scheduled_tokens per sequence. -/
def write_seqs_slots (block_size : ℕ) (so : SchedulerOutput)
    (num_processed num_scheduled : ℕ) :
    List ℕ → List ℤ × ℕ → List ℤ × ℕ
  | [], acc => acc
  | seq_id :: rest, acc =>
    write_seqs_slots block_size so num_processed num_scheduled rest
      (write_sequence_slots block_size (so.block_tables seq_id)
        num_processed num_scheduled acc.2 acc.1,
       acc.2 + num_scheduled)

/-- the slots written for one scheduled group. -/
def write_group_slots (block_size : ℕ) (so : SchedulerOutput) (g : SequenceGroup)
    (acc : List ℤ × ℕ) : List ℤ × ℕ :=
  write_seqs_slots block_size so g.num_processed_tokens g.num_scheduled_tokens
    g.running_sequence_ids acc

/-- the group scheduled at position gi of the scheduler output. -/
def scheduled_group (groups : List SequenceGroup) (so : SchedulerOutput)
    (gi : ℕ) : SequenceGroup :=
  groups.getD (so.scheduled_sequence_groups_ids.getD gi 0) default

/-- number of flat batch entries one scheduled group contributes. -/
def group_batch (groups : List SequenceGroup) (gid : ℕ) : ℕ :=
  (groups.getD gid default).num_scheduled_tokens *
    (groups.getD gid default).running_sequence_ids.length

/-- Source: the batch_size aggregation loop of forward. -/
def batch_size (groups : List SequenceGroup) (so : SchedulerOutput) : ℕ :=
  (so.scheduled_sequence_groups_ids.map (group_batch groups)).sum

/-- the outer loop over the scheduled groups threading the flat write
offset. -/
def write_groups (block_size : ℕ) (groups : List SequenceGroup)
    (so : SchedulerOutput) : List ℕ → List ℤ × ℕ → List ℤ × ℕ
  | [], acc => acc
  | gid :: rest, acc =>
    write_groups block_size groups so rest
      (write_group_slots block_size so (groups.getD gid default) acc)

/-- Source: the slot_mapping tensor as filled by forward — the loops over
scheduled groups, running sequences and scheduled tokens, writing into a
tensor preallocated at batch_size. -/
def forward_slot_mapping (block_size : ℕ) (groups : List SequenceGroup)
    (so : SchedulerOutput) : List ℤ :=
  (write_groups block_size groups so so.scheduled_sequence_groups_ids
    (List.replicate (batch_size groups so) 0, 0)).1

/-- flat batch index of token t of the si-th running sequence of the gi-th
scheduled group. -/
def flat_offset (groups : List SequenceGroup) (so : SchedulerOutput)
    (gi si : ℕ) : ℕ :=
  ((so.scheduled_sequence_groups_ids.take gi).map (group_batch groups)).sum
    + si * (scheduled_group groups so gi).num_scheduled_tokens

end ModelRunner

/-! ## GenerationHandle::read_all — stream reconstruction

Source: generation_handle.cpp (the chunk-based read_all).  The while loop
consumes iteration results until the stream is finished and drained; in this
sequential embedding the stream is the list of per-iteration unordered_map
snapshots, modelled by association lists with nodup keys, and the loop is
structural recursion over that list.  The C++ exceptions (a parent id absent
from intermediate_results) and out-of-range accesses (an empty chunk-index
list) are modelled by an Option-valued result. -/

namespace ReadAll

/-- Source: GenerationOutput of the continuous-batching library — the token
produced for a sequence this iteration, the id of the parent sequence (0
plays the role of «no parent»: the source tests the id for truthiness, and
sequence ids start at 1), and the cumulative log probability so far.  The
log probability is only ever copied by read_all, so it is modelled by an
integer payload. -/
structure GenerationOutput where
  token_id : ℤ
  parent_id : ℕ
  cumulative_log_prob : ℤ
deriving DecidableEq, Repr

/-- one unordered_map of per-sequence outputs returned by read(). -/
abbrev Iteration := List (ℕ × GenerationOutput)

/-- Source: IntermediateResult — the chunk indexes making up a sequence so
far and the cumulative log probability stored when the record was created. -/
structure IntermediateResult where
  output_chunks_indexes : List ℕ
  cumulative_log_prob : ℤ
deriving DecidableEq, Repr

/-- association-list lookup, modelling unordered_map find / at. -/
def alookup {α : Type} : List (ℕ × α) → ℕ → Option α
  | [], _ => none
  | e :: rest, k => if e.1 = k then some e.2 else alookup rest k

/-- association-list membership, modelling map.count / find != end. -/
def acontains {α : Type} (m : List (ℕ × α)) (k : ℕ) : Bool :=
  (alookup m k).isSome

/-- the keys of an association list. -/
def akeys {α : Type} (m : List (ℕ × α)) : List ℕ :=
  m.map Prod.fst

/-- in-place value replacement for a key, modelling mutation through a map
iterator. -/
def aset {α : Type} (m : List (ℕ × α)) (k : ℕ) (v : α) : List (ℕ × α) :=
  m.map (fun e => if e.1 = k then (k, v) else e)

/-- Source: insertion of the new_sequences map into intermediate_results;
std::unordered_map::insert skips keys already present. -/
def insert_new {α : Type} (m news : List (ℕ × α)) : List (ℕ × α) :=
  news.foldl (fun acc e => if acontains acc e.1 then acc else acc ++ [e]) m

/-- Source: the drop loop — sequences present in the previous iteration but
absent from the current one are erased. -/
def drop_discontinued {α : Type} (m : List (ℕ × α)) (last_ids iter_ids : List ℕ) :
    List (ℕ × α) :=
  m.filter (fun e => !(last_ids.contains e.1 && !(iter_ids.contains e.1)))

/-- Source: add_output_chunk — pushes a fresh one-token chunk and appends its
index to the given index list. -/
def add_output_chunk (chunks : List (List ℤ)) (idxs : List ℕ) (token_id : ℤ) :
    List (List ℤ) × List ℕ :=
  (chunks ++ [[token_id]], idxs ++ [chunks.length])

/-- push_back of a token into an existing chunk. -/
def append_at (chunks : List (List ℤ)) (q : ℕ) (token_id : ℤ) : List (List ℤ) :=
  chunks.set q (chunks.getD q [] ++ [token_id])

/-- the loop state of read_all. -/
structure ReadAllState where
  outputs_chunks : List (List ℤ)
  intermediate_results : List (ℕ × IntermediateResult)
  last_ids : List ℕ
deriving DecidableEq, Repr

/-- Source: the branch taken while last_iteration_results is empty — every
sequence of the iteration is treated as a root and receives a fresh chunk. -/
def first_pass : Iteration → List (List ℤ) → List (ℕ × IntermediateResult) →
    List (List ℤ) × List (ℕ × IntermediateResult)
  | [], chunks, inter => (chunks, inter)
  | (id, out) :: rest, chunks, inter =>
    let p := add_output_chunk chunks [] out.token_id
    let inter1 := if acontains inter id then inter
      else inter ++ [(id, ⟨p.2, out.cumulative_log_prob⟩)]
    first_pass rest p.1 inter1

/-- Source: the first iteration pass over iteration_results — sequences not
yet tracked get a record; a forked sequence copies its parent's chunk
indexes (throwing, modelled by none, when the parent is unknown) and the
parent is marked forked; each new sequence gets a fresh chunk holding its
token. -/
def pass1 (inter : List (ℕ × IntermediateResult)) :
    Iteration → List (List ℤ) → List (ℕ × IntermediateResult) → List ℕ →
    Option (List (List ℤ) × List (ℕ × IntermediateResult) × List ℕ)
  | [], chunks, news, forked => some (chunks, news, forked)
  | (id, out) :: rest, chunks, news, forked =>
    if acontains inter id then pass1 inter rest chunks news forked
    else if out.parent_id ≠ 0 then
      match alookup inter out.parent_id with
      | none => none
      | some pr =>
        let p := add_output_chunk chunks pr.output_chunks_indexes out.token_id
        let news1 := if acontains news id then news
          else news ++ [(id, ⟨p.2, out.cumulative_log_prob⟩)]
        pass1 inter rest p.1 news1 (forked ++ [out.parent_id])
    else
      let p := add_output_chunk chunks [] out.token_id
      let news1 := if acontains news id then news
        else news ++ [(id, ⟨p.2, out.cumulative_log_prob⟩)]
      pass1 inter rest p.1 news1 forked

/-- Source: the second iteration pass — sequences already tracked either
start a fresh chunk (when they were forked this iteration) or push their
token into their current last chunk (an empty index list, impossible by
invariant, is modelled by none). -/
def pass2 (forked : List ℕ) :
    Iteration → List (List ℤ) → List (ℕ × IntermediateResult) →
    Option (List (List ℤ) × List (ℕ × IntermediateResult))
  | [], chunks, inter => some (chunks, inter)
  | (id, out) :: rest, chunks, inter =>
    match alookup inter id with
    | none => pass2 forked rest chunks inter
    | some ir =>
      if forked.contains id then
        let p := add_output_chunk chunks ir.output_chunks_indexes out.token_id
        pass2 forked rest p.1
          (aset inter id ⟨p.2, ir.cumulative_log_prob⟩)
      else
        match ir.output_chunks_indexes.getLast? with
        | none => none
        | some q => pass2 forked rest (append_at chunks q out.token_id) inter

/-- Source: the body of the while loop of read_all for one iteration map. -/
def process_iteration (st : ReadAllState) (iter : Iteration) : Option ReadAllState :=
  if st.last_ids.isEmpty then
    let p := first_pass iter st.outputs_chunks st.intermediate_results
    some ⟨p.1, p.2, akeys iter⟩
  else
    match pass1 st.intermediate_results iter st.outputs_chunks [] [] with
    | none => none
    | some (chunks1, news, forked) =>
      match pass2 forked iter chunks1 st.intermediate_results with
      | none => none
      | some (chunks2, inter2) =>
        some ⟨chunks2,
          insert_new (drop_discontinued inter2 st.last_ids (akeys iter)) news,
          akeys iter⟩

/-- the while loop of read_all over the whole stream. -/
def read_all_loop : List Iteration → ReadAllState → Option ReadAllState
  | [], st => some st
  | iter :: rest, st =>
    match process_iteration st iter with
    | none => none
    | some st1 => read_all_loop rest st1

/-- tokens of one tracked sequence: concatenation, in order, of its chunks. -/
def chunk_tokens (chunks : List (List ℤ)) (ir : IntermediateResult) : List ℤ :=
  (ir.output_chunks_indexes.map (fun i => chunks.getD i [])).flatten

/-- Source: the final gather loop of read_all — per tracked sequence, the
concatenated chunk contents paired with the stored log probability. -/
def gather (st : ReadAllState) : List (List ℤ × ℤ) :=
  st.intermediate_results.map
    (fun e => (chunk_tokens st.outputs_chunks e.2, e.2.cumulative_log_prob))

/-- Source: GenerationHandle::read_all — the loop from the empty state
followed by the gather. -/
def read_all (iters : List Iteration) : Option (List (List ℤ × ℤ)) :=
  (read_all_loop iters ⟨[], [], []⟩).map gather

/-! ### Specification-side model

The following definitions restate, in the claim's words, what read_all is
supposed to produce: each sequence present in an iteration accumulates the
token it was given there; a sequence appearing for the first time with a
parent starts from the parent's tokens accumulated so far (its chunks up to
the fork); sequences that disappear are discarded; the sequences reported at
the end are those of the last iteration.  The log probability attached to a
sequence is the one recorded when the sequence first appeared — this is the
amendment forced by the counterexample below (the source never updates the
stored cumulative_log_prob on later iterations). -/

/-- specification-side record for one tracked sequence: its accumulated
tokens and the log probability from its first appearance. -/
structure SpecEntry where
  tokens : List ℤ
  log_prob : ℤ
deriving DecidableEq, Repr

/-- specification-side first-iteration pass: every sequence is a root. -/
def spec_first_pass : Iteration → List (ℕ × SpecEntry) → List (ℕ × SpecEntry)
  | [], inter => inter
  | (id, out) :: rest, inter =>
    spec_first_pass rest
      (if acontains inter id then inter
       else inter ++ [(id, ⟨[out.token_id], out.cumulative_log_prob⟩)])

/-- specification-side pass over newly appearing sequences: a forked child
starts with its parent's accumulated tokens followed by its own token. -/
def spec_pass1 (inter : List (ℕ × SpecEntry)) :
    Iteration → List (ℕ × SpecEntry) → Option (List (ℕ × SpecEntry))
  | [], news => some news
  | (id, out) :: rest, news =>
    if acontains inter id then spec_pass1 inter rest news
    else if out.parent_id ≠ 0 then
      match alookup inter out.parent_id with
      | none => none
      | some pr =>
        let news1 := if acontains news id then news
          else news ++ [(id, ⟨pr.tokens ++ [out.token_id], out.cumulative_log_prob⟩)]
        spec_pass1 inter rest news1
    else
      let news1 := if acontains news id then news
        else news ++ [(id, ⟨[out.token_id], out.cumulative_log_prob⟩)]
      spec_pass1 inter rest news1

/-- specification-side pass over already tracked sequences: each appends its
token of this iteration (whether or not it was forked). -/
def spec_pass2 : Iteration → List (ℕ × SpecEntry) → List (ℕ × SpecEntry)
  | [], inter => inter
  | (id, out) :: rest, inter =>
    match alookup inter id with
    | none => spec_pass2 rest inter
    | some e => spec_pass2 rest (aset inter id ⟨e.tokens ++ [out.token_id], e.log_prob⟩)

/-- specification-side loop state. -/
structure SpecState where
  entries : List (ℕ × SpecEntry)
  last_ids : List ℕ
deriving DecidableEq, Repr

/-- specification-side processing of one iteration. -/
def spec_process_iteration (st : SpecState) (iter : Iteration) : Option SpecState :=
  if st.last_ids.isEmpty then
    some ⟨spec_first_pass iter st.entries, akeys iter⟩
  else
    match spec_pass1 st.entries iter [] with
    | none => none
    | some news =>
      some ⟨insert_new
        (drop_discontinued (spec_pass2 iter st.entries) st.last_ids (akeys iter))
        news, akeys iter⟩

/-- specification-side loop. -/
def spec_read_all_loop : List Iteration → SpecState → Option SpecState
  | [], st => some st
  | iter :: rest, st =>
    match spec_process_iteration st iter with
    | none => none
    | some st1 => spec_read_all_loop rest st1

/-- specification-side read_all result: for every sequence of the last
iteration, its accumulated tokens along the parent chain paired with the log
probability of its first appearance. -/
def spec_read_all (iters : List Iteration) : Option (List (List ℤ × ℤ)) :=
  (spec_read_all_loop iters ⟨[], []⟩).map
    (fun st => st.entries.map (fun e => (e.2.tokens, e.2.log_prob)))

/-! ### Invariants used by the equivalence proof -/

/-- the last chunk index of a record (the one the source writes into). -/
def lastIdx (ir : IntermediateResult) : ℕ :=
  ir.output_chunks_indexes.getLastD 0

/-- correspondence of one tracked sequence between the two models. -/
def EntryMatches (chunks : List (List ℤ)) (e : ℕ × IntermediateResult)
    (s : ℕ × SpecEntry) : Prop :=
  e.1 = s.1 ∧ chunk_tokens chunks e.2 = s.2.tokens ∧
    e.2.cumulative_log_prob = s.2.log_prob

/-- pointwise correspondence of the tracked maps. -/
def Matches (chunks : List (List ℤ)) (inter : List (ℕ × IntermediateResult))
    (sp : List (ℕ × SpecEntry)) : Prop :=
  List.Forall₂ (EntryMatches chunks) inter sp

/-- every record has at least one chunk and references only live chunks. -/
def BoundOk (chunks : List (List ℤ)) (inter : List (ℕ × IntermediateResult)) : Prop :=
  ∀ e ∈ inter, e.2.output_chunks_indexes ≠ [] ∧
    ∀ i ∈ e.2.output_chunks_indexes, i < chunks.length

/-- the writable (last) chunk of a record is not shared: it occurs in no
record's non-last positions, and two records with different keys have
different last chunks. -/
def Frozen (inter : List (ℕ × IntermediateResult)) : Prop :=
  (∀ e ∈ inter, ∀ f ∈ inter,
     lastIdx e.2 ∉ f.2.output_chunks_indexes.dropLast) ∧
  (∀ e ∈ inter, ∀ f ∈ inter, e.1 ≠ f.1 → lastIdx e.2 ≠ lastIdx f.2)

/-- the standing invariant of the read_all loop state. -/
def StateInv (st : ReadAllState) : Prop :=
  BoundOk st.outputs_chunks st.intermediate_results ∧
  Frozen st.intermediate_results ∧
  (akeys st.intermediate_results).Nodup ∧
  (∀ k, k ∈ akeys st.intermediate_results ↔ k ∈ st.last_ids)

/-- the simulation relation between the two models. -/
def Sim (st : ReadAllState) (sp : SpecState) : Prop :=
  Matches st.outputs_chunks st.intermediate_results sp.entries ∧
  st.last_ids = sp.last_ids

end ReadAll

/-! ## Theorems -/

/-! ### C4 — tokenizer equality gate -/

/-- helper: the boolean tokenizer comparison decides exactly the four-way
agreement. -/
theorem are_tokenizers_equal_iff (m d : SpecCoord.TokenizerModel) :
    SpecCoord.are_tokenizers_equal m d = true ↔
      (m.canary_shape = d.canary_shape ∧ m.eos_token_id = d.eos_token_id ∧
       m.bos_token_id = d.bos_token_id ∧ m.pad_token_id = d.pad_token_id) := by
  simp [SpecCoord.are_tokenizers_equal, Bool.and_eq_true, and_assoc]

/-- C4: construction of the speculative coordinator fails with a tokenizer
mismatch exactly when the main and draft tokenizers disagree on the canary
encoding shape or on one of the EOS, BOS, PAD special-token ids; it passes
this gate whenever all four agree. -/
theorem ctor_tokenizer_gate (m d : SpecCoord.TokenizerModel) :
    SpecCoord.ctor_tokenizer_check m d = SpecCoord.CtorOutcome.tokenizer_mismatch ↔
      ¬ (m.canary_shape = d.canary_shape ∧ m.eos_token_id = d.eos_token_id ∧
         m.bos_token_id = d.bos_token_id ∧ m.pad_token_id = d.pad_token_id) := by
  rw [SpecCoord.ctor_tokenizer_check]
  split_ifs with h
  · simp only [are_tokenizers_equal_iff] at h
    simp [h]
  · simp only [are_tokenizers_equal_iff] at h
    simp [h]

/-! ### C10 — generate rejects a busy pipeline and a size mismatch before
queueing anything -/

/-- C10: calling generate while requests are still running fails with the
busy error and leaves both queues untouched; generate with differing input
and sampling-params counts fails with the size-mismatch error and leaves
both queues untouched. -/
theorem generate_rejects_before_enqueue (st : SpecCoord.SDState)
    (input_ids : List SpecCoord.TensorModel)
    (sampling_params : List SpecCoord.GenerationConfig)
    (streamer : SpecCoord.Streamer)
    (outputs : ℕ → List SpecCoord.GenerationOutputSD) :
    (SpecCoord.sd_generate st true input_ids sampling_params streamer outputs
        = (st, Except.error SpecCoord.GenError.busy)) ∧
      (input_ids.length ≠ sampling_params.length →
        SpecCoord.sd_generate st false input_ids sampling_params streamer outputs
          = (st, Except.error SpecCoord.GenError.size_mismatch)) := by
  refine ⟨rfl, fun h => ?_⟩
  simp [SpecCoord.sd_generate, h]

/-- C10 witness at a concrete busy call and a concrete size mismatch. -/
theorem generate_rejects_before_enqueue_witness :
    SpecCoord.sd_generate ⟨[], []⟩ false [] [default] SpecCoord.Streamer.absent
        (fun _ => []) = (⟨[], []⟩, Except.error SpecCoord.GenError.size_mismatch) :=
  (generate_rejects_before_enqueue ⟨[], []⟩ [] [default] SpecCoord.Streamer.absent
    (fun _ => [])).2 (by decide)

/-! ### C7 — streamer restriction of generate -/

/-- helper: the add-request loop of generate can only fail with the
batched-tensor error. -/
theorem add_requests_loop_error (e : SpecCoord.GenError) :
    ∀ (pairs : List (SpecCoord.TensorModel × SpecCoord.GenerationConfig))
      (st : SpecCoord.SDState) (i : ℕ),
      (SpecCoord.add_requests_loop st i pairs).2 = some e →
      e = SpecCoord.GenError.batched_tensor
  | [], st, i => by simp [SpecCoord.add_requests_loop]
  | (t, p) :: rest, st, i => by
    simp only [SpecCoord.add_requests_loop]
    split_ifs with h
    · intro he
      simp at he
      exact he.symm
    · exact add_requests_loop_error e rest _ _

/-- helper: when the boolean streamer gate fails. -/
theorem streamer_check_false_iff (s : SpecCoord.Streamer) (n : ℕ)
    (ps : List SpecCoord.GenerationConfig) :
    SpecCoord.streamer_check s n ps = false ↔
      (s ≠ SpecCoord.Streamer.absent ∧
        ¬ (n = 1 ∧ ((ps.headD default).is_greedy_decoding = true ∨
                    (ps.headD default).is_multinomial = true))) := by
  cases s <;>
    simp [SpecCoord.streamer_check, Bool.and_eq_true, Bool.or_eq_true,
      not_and_or, and_comm]

/-- C7: generate with a non-null streamer fails with the streaming error
exactly when the batch is not a single prompt decoded greedily or
multinomially; a null streamer never triggers this error.  The busy, size
and adapters gates are assumed passed (they precede this one in the
source). -/
theorem generate_streamer_gate (st : SpecCoord.SDState)
    (input_ids : List SpecCoord.TensorModel)
    (sampling_params : List SpecCoord.GenerationConfig)
    (streamer : SpecCoord.Streamer)
    (outputs : ℕ → List SpecCoord.GenerationOutputSD)
    (h2 : input_ids.length = sampling_params.length)
    (h3 : SpecCoord.adapters_consistent sampling_params = true) :
    ((SpecCoord.sd_generate st false input_ids sampling_params streamer outputs).2
        = Except.error SpecCoord.GenError.streaming_unsupported) ↔
      (streamer ≠ SpecCoord.Streamer.absent ∧
        ¬ (input_ids.length = 1 ∧
           ((sampling_params.headD default).is_greedy_decoding = true ∨
            (sampling_params.headD default).is_multinomial = true))) := by
  have hlen : ¬ input_ids.length ≠ sampling_params.length := by simp [h2]
  have had : ¬ SpecCoord.adapters_consistent sampling_params = false := by simp [h3]
  rw [← streamer_check_false_iff streamer input_ids.length sampling_params]
  cases hc : SpecCoord.streamer_check streamer input_ids.length sampling_params with
  | false => simp [SpecCoord.sd_generate, hlen, had, hc]
  | true =>
    have hsc : ¬ SpecCoord.streamer_check streamer input_ids.length sampling_params
        = false := by simp [hc]
    rcases hmatch : SpecCoord.add_requests_loop st 0 (input_ids.zip sampling_params)
      with ⟨st1, err⟩
    cases err with
    | none => simp [SpecCoord.sd_generate, hlen, had, hsc, hmatch]
    | some e =>
      have he := add_requests_loop_error e (input_ids.zip sampling_params) st 0
        (by rw [hmatch])
      subst he
      simp [SpecCoord.sd_generate, hlen, had, hsc, hmatch]

/-- C7 witness: a concrete two-prompt call with an object streamer fails
with the streaming restriction. -/
theorem generate_streamer_gate_witness :
    (SpecCoord.sd_generate ⟨[], []⟩ false [⟨1, [5]⟩, ⟨1, [6]⟩] [default, default]
        SpecCoord.Streamer.object (fun _ => [])).2
      = Except.error SpecCoord.GenError.streaming_unsupported :=
  (generate_streamer_gate ⟨[], []⟩ [⟨1, [5]⟩, ⟨1, [6]⟩] [default, default]
      SpecCoord.Streamer.object (fun _ => []) rfl (by decide)).mpr
    ⟨by decide, by decide⟩

/-! ### C9 — the draft pipeline receives ignore_eos := true -/

/-- helper: queue contents after the add-request loop of generate, assuming
all tensors are unbatched. -/
theorem add_requests_loop_queues :
    ∀ (pairs : List (SpecCoord.TensorModel × SpecCoord.GenerationConfig))
      (st2 : SpecCoord.SDState) (i : ℕ),
      (∀ x ∈ pairs, x.1.batch_dim = 1) →
      (SpecCoord.add_requests_loop st2 i pairs).1.draft_requests
          = st2.draft_requests ++ (List.enumFrom i pairs).map
              (fun e => ⟨e.1, e.2.1.token_ids, { e.2.2 with ignore_eos := true }⟩) ∧
        (SpecCoord.add_requests_loop st2 i pairs).1.main_requests
          = st2.main_requests ++ (List.enumFrom i pairs).map
              (fun e => ⟨e.1, e.2.1.token_ids, e.2.2⟩)
  | [], st2, i, _ => by simp [SpecCoord.add_requests_loop, List.enumFrom]
  | (t, pcfg) :: rest, st2, i, h => by
    have ht1 : t.batch_dim = 1 := h (t, pcfg) (List.mem_cons_self _ _)
    have ht : ¬ t.batch_dim ≠ 1 := by simp [ht1]
    have hrest := add_requests_loop_queues rest
      ⟨st2.main_requests ++ [⟨i, t.token_ids, pcfg⟩],
       st2.draft_requests ++ [⟨i, t.token_ids, { pcfg with ignore_eos := true }⟩]⟩
      (i + 1) (fun x hx => h x (by simp [hx]))
    simp only [SpecCoord.add_requests_loop, if_neg ht]
    refine ⟨?_, ?_⟩
    · rw [hrest.1]
      simp [List.enumFrom]
    · rw [hrest.2]
      simp [List.enumFrom]

/-- C9: every request entering the coordinator hands the draft pipeline a
copy of the caller's sampling params with ignore_eos forced to true while
the main pipeline receives them unchanged — through add_request (both
overloads share this queue behaviour) and through the add-request loop of
generate. -/
theorem draft_receives_ignore_eos (st : SpecCoord.SDState) (request_id : ℕ)
    (input : List ℤ) (p : SpecCoord.GenerationConfig) :
    ((SpecCoord.sd_add_request st request_id input p).draft_requests
        = st.draft_requests ++ [⟨request_id, input, { p with ignore_eos := true }⟩] ∧
      (SpecCoord.sd_add_request st request_id input p).main_requests
        = st.main_requests ++ [⟨request_id, input, p⟩]) ∧
    ∀ (st2 : SpecCoord.SDState) (i : ℕ)
      (pairs : List (SpecCoord.TensorModel × SpecCoord.GenerationConfig)),
      (∀ x ∈ pairs, x.1.batch_dim = 1) →
      (SpecCoord.add_requests_loop st2 i pairs).1.draft_requests
          = st2.draft_requests ++ (List.enumFrom i pairs).map
              (fun e => ⟨e.1, e.2.1.token_ids, { e.2.2 with ignore_eos := true }⟩) ∧
        (SpecCoord.add_requests_loop st2 i pairs).1.main_requests
          = st2.main_requests ++ (List.enumFrom i pairs).map
              (fun e => ⟨e.1, e.2.1.token_ids, e.2.2⟩) :=
  ⟨⟨rfl, rfl⟩, fun st2 i pairs h => add_requests_loop_queues pairs st2 i h⟩

/-- C9 witness: one concrete add_request and one concrete two-request
generate loop. -/
theorem draft_receives_ignore_eos_witness :
    (SpecCoord.sd_add_request ⟨[], []⟩ 7 [1, 2] default).draft_requests
        = [⟨7, [1, 2], { (default : SpecCoord.GenerationConfig) with
            ignore_eos := true }⟩] ∧
      (SpecCoord.add_requests_loop ⟨[], []⟩ 0
          [(⟨1, [5]⟩, default), (⟨1, [6]⟩, default)]).1.main_requests
        = [⟨0, [5], default⟩, ⟨1, [6], default⟩] := by
  have h := draft_receives_ignore_eos ⟨[], []⟩ 7 [1, 2] default
  refine ⟨h.1.1.trans (by simp), ?_⟩
  have h2 := (h.2 ⟨[], []⟩ 0 [(⟨1, [5]⟩, default), (⟨1, [6]⟩, default)]
    (by decide)).2
  rw [h2]
  simp [List.enumFrom]

/-! ### C6 — generate assigns a constant request id to every result -/

/-- C6: the source line result.m_request_id = 1 makes every result of a
two-prompt generate carry request id 1, whereas the ids passed to
add_request for the two prompts are 0 and 1 — so the first result does not
carry the id that created its group. -/
theorem generate_result_ids_constant :
    ((SpecCoord.sd_generate ⟨[], []⟩ false [⟨1, [5]⟩, ⟨1, [6]⟩]
          [default, default] SpecCoord.Streamer.absent (fun _ => [])).2.map
        (fun rs => rs.map SpecCoord.EncodedGenerationResult.m_request_id)
      = Except.ok [1, 1]) ∧
    ((SpecCoord.add_requests_loop ⟨[], []⟩ 0
          ([⟨1, [5]⟩, ⟨1, [6]⟩].zip [default, default])).1.main_requests.map
        SpecCoord.PipelineRequest.request_id = [0, 1]) ∧
    [1, 1] ≠ [0, 1] := ⟨rfl, by decide, by decide⟩

/-! ### C8 — tokenizer library lookup falls back to the bare LIB_NAME -/

/-- C8: with the library absent from the supplied path and from every
directory of LD_PRELOAD and LD_LIBRARY_PATH (modelled by a filesystem where
nothing exists and an empty environment), the lookup returns the bare
default LIB_NAME instead of failing: no error path exists in the source for
this case. -/
theorem tokenizer_lookup_silent_default :
    TokenizerPath.get_openvino_tokenizer_path (fun _ => false) (fun _ => [])
        ['/', 'c', 'w', 'd'] ['/', 'm', 'o', 'd', 'e', 'l', 's']
      = TokenizerPath.lib_name ∧ TokenizerPath.lib_name ≠ [] :=
  ⟨by decide, by decide⟩

/-! ### C5 — per-step metrics -/

/-- helper: one metrics turn for a different request id leaves a request's
metrics unchanged. -/
theorem metrics_one_other (info : ℕ → SpecCoord.UpdateRequestResult)
    (m : SpecCoord.SDMetrics) (j id : ℕ) (h : id ≠ j) :
    (SpecCoord.step_update_metrics_one info m j).acceptance_rate id
        = m.acceptance_rate id ∧
      (SpecCoord.step_update_metrics_one info m j).draft_accepted_tokens id
        = m.draft_accepted_tokens id := by
  rw [SpecCoord.step_update_metrics_one]
  split_ifs with h0
  · exact ⟨rfl, rfl⟩
  · simp [SpecCoord.SDMetrics.update_acceptance_rate,
      SpecCoord.SDMetrics.update_draft_accepted_tokens, h]

/-- helper: the metrics fold over ids not containing a request id leaves
that request's metrics unchanged. -/
theorem metrics_foldl_other (info : ℕ → SpecCoord.UpdateRequestResult) (id : ℕ) :
    ∀ (ids : List ℕ) (m : SpecCoord.SDMetrics), id ∉ ids →
      (ids.foldl (SpecCoord.step_update_metrics_one info) m).acceptance_rate id
          = m.acceptance_rate id ∧
        (ids.foldl (SpecCoord.step_update_metrics_one info) m).draft_accepted_tokens id
          = m.draft_accepted_tokens id
  | [], m, _ => ⟨rfl, rfl⟩
  | j :: rest, m, h => by
    have hne : id ≠ j := fun hh => h (hh ▸ List.mem_cons_self _ _)
    have hrest := metrics_foldl_other info id rest
      (SpecCoord.step_update_metrics_one info m j)
      (fun hh => h (List.mem_cons_of_mem _ hh))
    have hone := metrics_one_other info m j id hne
    exact ⟨by rw [List.foldl_cons, hrest.1, hone.1],
           by rw [List.foldl_cons, hrest.2, hone.2]⟩

/-- C5 counterexample: with 2 inserted and 1 removed draft tokens the source
records 50 (the rate scaled by 100), not 1 - 1/2. -/
theorem metrics_rate_counterexample :
    (SpecCoord.step_update_metrics ⟨fun _ => [], fun _ => 0⟩ [0]
          (fun _ => ⟨2, 1⟩)).acceptance_rate 0 = [(50 : ℚ)] ∧
      (50 : ℚ) ≠ 1 - (1 : ℚ) / 2 := by
  constructor
  · show (SpecCoord.step_update_metrics_one (fun _ => ⟨2, 1⟩)
        ⟨fun _ => [], fun _ => 0⟩ 0).acceptance_rate 0 = [(50 : ℚ)]
    rw [SpecCoord.step_update_metrics_one]
    norm_num [SpecCoord.SDMetrics.update_acceptance_rate,
      SpecCoord.SDMetrics.update_draft_accepted_tokens]
  · norm_num

/-- C5 as amended: after the metrics loop of one coordinator step, a request
with a nonzero inserted-token count has acceptance rate
(1 - removed/inserted) * 100 recorded (the source reports the rate as a
percentage) and its draft-accepted-token aggregate grows by
inserted - removed; a request with zero inserted tokens (prompt phase) has
neither metric updated. -/
theorem step_metrics_update (m : SpecCoord.SDMetrics) (ids : List ℕ)
    (info : ℕ → SpecCoord.UpdateRequestResult) (id : ℕ)
    (hnd : ids.Nodup) (hid : id ∈ ids) :
    ((info id).inserted_tokens_cnt = 0 →
      (SpecCoord.step_update_metrics m ids info).acceptance_rate id
          = m.acceptance_rate id ∧
        (SpecCoord.step_update_metrics m ids info).draft_accepted_tokens id
          = m.draft_accepted_tokens id) ∧
    ((info id).inserted_tokens_cnt ≠ 0 →
      (SpecCoord.step_update_metrics m ids info).acceptance_rate id
          = ((1 - ((info id).removed_tokens_cnt : ℚ)
                / ((info id).inserted_tokens_cnt : ℚ)) * 100)
              :: m.acceptance_rate id ∧
        (SpecCoord.step_update_metrics m ids info).draft_accepted_tokens id
          = m.draft_accepted_tokens id
              + ((info id).inserted_tokens_cnt - (info id).removed_tokens_cnt)) := by
  obtain ⟨s, t, rfl⟩ := List.append_of_mem hid
  have hnds := hnd
  rw [List.nodup_append] at hnds
  have hids : id ∉ s := fun hh => hnds.2.2 hh (List.mem_cons_self _ _)
  have hidt : id ∉ t := by
    have := hnds.2.1
    rw [List.nodup_cons] at this
    exact this.1
  rw [SpecCoord.step_update_metrics, List.foldl_append, List.foldl_cons]
  have hs := metrics_foldl_other info id s m hids
  constructor
  · intro hz
    have hmid : SpecCoord.step_update_metrics_one info
        (s.foldl (SpecCoord.step_update_metrics_one info) m) id
        = s.foldl (SpecCoord.step_update_metrics_one info) m := by
      rw [SpecCoord.step_update_metrics_one, if_pos hz]
    rw [hmid]
    have ht := metrics_foldl_other info id t
      (s.foldl (SpecCoord.step_update_metrics_one info) m) hidt
    exact ⟨ht.1.trans hs.1, ht.2.trans hs.2⟩
  · intro hz
    set m1 := s.foldl (SpecCoord.step_update_metrics_one info) m with hm1
    have hmid : (SpecCoord.step_update_metrics_one info m1 id).acceptance_rate id
        = ((1 - ((info id).removed_tokens_cnt : ℚ)
              / ((info id).inserted_tokens_cnt : ℚ)) * 100) :: m1.acceptance_rate id
        ∧ (SpecCoord.step_update_metrics_one info m1 id).draft_accepted_tokens id
        = m1.draft_accepted_tokens id
            + ((info id).inserted_tokens_cnt - (info id).removed_tokens_cnt) := by
      rw [SpecCoord.step_update_metrics_one, if_neg hz]
      constructor
      · simp [SpecCoord.SDMetrics.update_acceptance_rate,
          SpecCoord.SDMetrics.update_draft_accepted_tokens]
      · simp [SpecCoord.SDMetrics.update_acceptance_rate,
          SpecCoord.SDMetrics.update_draft_accepted_tokens]
    have ht := metrics_foldl_other info id t
      (SpecCoord.step_update_metrics_one info m1 id) hidt
    exact ⟨ht.1.trans (hmid.1.trans (by rw [hs.1])),
           ht.2.trans (hmid.2.trans (by rw [hs.2]))⟩

/-- C5 witness: a request with 4 inserted and 1 removed tokens gets
acceptance rate 75 recorded and its accepted aggregate grows by 3. -/
theorem step_metrics_update_witness :
    (SpecCoord.step_update_metrics ⟨fun _ => [], fun _ => 0⟩ [3]
          (fun _ => ⟨4, 1⟩)).acceptance_rate 3
        = [(1 - (1 : ℚ) / 4) * 100] ∧
      (SpecCoord.step_update_metrics ⟨fun _ => [], fun _ => 0⟩ [3]
          (fun _ => ⟨4, 1⟩)).draft_accepted_tokens 3 = 0 + (4 - 1) := by
  have h := step_metrics_update ⟨fun _ => [], fun _ => 0⟩ [3] (fun _ => ⟨4, 1⟩) 3
    (by decide) (by decide)
  exact ⟨((h.2 (by decide)).1), ((h.2 (by decide)).2)⟩

/-! ### C3 — KV-cache split -/

/-- C3 counterexample: with cache size 10, main hidden size 100 and draft
hidden size 1 the ceiling formula gives 10, so the remainder is 0 and the
adjustment branch fires: the code sets the main cache to 9, not to the
ceiling value 10 the claim asserts. -/
theorem cache_split_counterexample :
    SpecCoord.split_kv_cache 10 100 1 = (9, 1) ∧
      SpecCoord.main_cache_formula 10 100 1 = 10 ∧ (9 : ℕ) ≠ 10 := by
  have hceil : SpecCoord.main_cache_formula 10 100 1 = 10 := by
    rw [SpecCoord.main_cache_formula, Nat.ceil_eq_iff (by norm_num)]
    push_cast
    norm_num
  refine ⟨?_, hceil, by norm_num⟩
  have : SpecCoord.split_kv_cache 10 100 1
      = (SpecCoord.main_cache_formula 10 100 1
          - (if 1 < SpecCoord.main_cache_formula 10 100 1 then 1 else 0), 1) := by
    rw [SpecCoord.split_kv_cache, SpecCoord.main_cache_formula]
    rw [if_pos]
    rw [SpecCoord.main_cache_formula] at hceil
    rw [hceil]
    exact ⟨by omega, by omega⟩
  rw [this, hceil]
  norm_num

/-- C3 as amended: when the draft scheduler is unspecified the main cache is
the ceiling of cache_size * (1 - k) and the draft cache the remainder,
except when that remainder is 0 while the main share is positive, in which
case the draft cache is set to 1 and the main cache loses one block (when it
has more than one); consequently the draft cache is never 0 when the total
cache size is positive. -/
theorem cache_split_spec (cache_size main_hidden draft_hidden : ℕ)
    (_h : 0 < main_hidden + draft_hidden) :
    (cache_size - SpecCoord.main_cache_formula cache_size main_hidden draft_hidden ≠ 0 →
      SpecCoord.split_kv_cache cache_size main_hidden draft_hidden
        = (SpecCoord.main_cache_formula cache_size main_hidden draft_hidden,
           cache_size - SpecCoord.main_cache_formula cache_size main_hidden draft_hidden)) ∧
    (cache_size - SpecCoord.main_cache_formula cache_size main_hidden draft_hidden = 0 →
      0 < SpecCoord.main_cache_formula cache_size main_hidden draft_hidden →
      SpecCoord.split_kv_cache cache_size main_hidden draft_hidden
        = (SpecCoord.main_cache_formula cache_size main_hidden draft_hidden
            - (if 1 < SpecCoord.main_cache_formula cache_size main_hidden draft_hidden
               then 1 else 0), 1)) ∧
    (0 < cache_size →
      1 ≤ (SpecCoord.split_kv_cache cache_size main_hidden draft_hidden).2) := by
  rw [SpecCoord.split_kv_cache, ← SpecCoord.main_cache_formula]
  refine ⟨fun hd => ?_, fun hd hm => ?_, fun hc => ?_⟩
  · rw [if_neg (fun hh => hd hh.1)]
  · rw [if_pos ⟨hd, hm⟩]
  · by_cases hd : cache_size
        - SpecCoord.main_cache_formula cache_size main_hidden draft_hidden = 0
    · by_cases hm : 0 < SpecCoord.main_cache_formula cache_size main_hidden draft_hidden
      · rw [if_pos ⟨hd, hm⟩]
      · rw [if_neg (fun hh => hm hh.2)]
        omega
    · rw [if_neg (fun hh => hd hh.1)]
      omega

/-- C3 witness: cache 10, hidden sizes 3 and 1 — the remainder is nonzero,
so the split is (ceil, remainder) = (8, 2), and the draft share is at
least 1. -/
theorem cache_split_spec_witness :
    SpecCoord.split_kv_cache 10 3 1 = (8, 2) ∧
      1 ≤ (SpecCoord.split_kv_cache 10 3 1).2 := by
  have hceil : SpecCoord.main_cache_formula 10 3 1 = 8 := by
    rw [SpecCoord.main_cache_formula, Nat.ceil_eq_iff (by norm_num)]
    push_cast
    norm_num
  have h := cache_split_spec 10 3 1 (by norm_num)
  refine ⟨(h.1 (by rw [hceil]; omega)).trans (by rw [hceil]), h.2.2 (by norm_num)⟩

/-! ### C1 — slot mapping of ModelRunner::forward -/

namespace ModelRunner

/-- unrolling of the token loop: the last scheduled token is written last. -/
theorem wss_succ (bs : ℕ) (bt : List ℕ) (proc n off : ℕ) (arr : List ℤ) :
    write_sequence_slots bs bt proc (n + 1) off arr
      = (write_sequence_slots bs bt proc n off arr).set (off + n)
          (slot_for bs bt (proc + n)) := by
  rw [write_sequence_slots, write_sequence_slots, List.range_succ,
    List.foldl_append, List.foldl_cons, List.foldl_nil]

/-- the token loop preserves the tensor length. -/
theorem wss_length (bs : ℕ) (bt : List ℕ) (proc : ℕ) :
    ∀ (n : ℕ) (off : ℕ) (arr : List ℤ),
      (write_sequence_slots bs bt proc n off arr).length = arr.length
  | 0, _, _ => rfl
  | n + 1, off, arr => by
    rw [wss_succ, List.length_set, wss_length bs bt proc n off arr]

/-- the token loop does not write outside its index window. -/
theorem wss_get_outside (bs : ℕ) (bt : List ℕ) (proc : ℕ) :
    ∀ (n : ℕ) (off : ℕ) (arr : List ℤ) (i : ℕ), (i < off ∨ off + n ≤ i) →
      (write_sequence_slots bs bt proc n off arr)[i]? = arr[i]?
  | 0, _, _, _, _ => rfl
  | n + 1, off, arr, i, h => by
    rw [wss_succ, List.getElem?_set, if_neg (by omega)]
    exact wss_get_outside bs bt proc n off arr i (by omega)

/-- the token loop writes the slot of logical position proc + t at flat
index off + t. -/
theorem wss_get_in (bs : ℕ) (bt : List ℕ) (proc : ℕ) :
    ∀ (n : ℕ) (off : ℕ) (arr : List ℤ), off + n ≤ arr.length →
      ∀ (t : ℕ), t < n →
      (write_sequence_slots bs bt proc n off arr)[off + t]?
        = some (slot_for bs bt (proc + t))
  | 0, _, _, _, _, ht => absurd ht (by omega)
  | n + 1, off, arr, h, t, ht => by
    rw [wss_succ, List.getElem?_set]
    by_cases he : t = n
    · subst he
      rw [if_pos rfl, if_pos (by rw [wss_length]; omega)]
    · rw [if_neg (by omega)]
      exact wss_get_in bs bt proc n off arr (by omega) t (by omega)

/-- the sequence loop advances the flat offset by one window per sequence. -/
theorem wseqs_snd (bs : ℕ) (so : SchedulerOutput) (proc sched : ℕ) :
    ∀ (sids : List ℕ) (acc : List ℤ × ℕ),
      (write_seqs_slots bs so proc sched sids acc).2
        = acc.2 + sched * sids.length
  | [], acc => by simp [write_seqs_slots]
  | sid :: rest, acc => by
    rw [write_seqs_slots, wseqs_snd bs so proc sched rest]
    simp only [List.length_cons, Nat.mul_succ]
    omega

/-- the sequence loop preserves the tensor length. -/
theorem wseqs_length (bs : ℕ) (so : SchedulerOutput) (proc sched : ℕ) :
    ∀ (sids : List ℕ) (acc : List ℤ × ℕ),
      (write_seqs_slots bs so proc sched sids acc).1.length = acc.1.length
  | [], _ => rfl
  | sid :: rest, acc => by
    rw [write_seqs_slots, wseqs_length bs so proc sched rest]
    exact wss_length bs _ proc sched acc.2 acc.1

/-- the sequence loop does not write below its starting offset. -/
theorem wseqs_get_low (bs : ℕ) (so : SchedulerOutput) (proc sched : ℕ) :
    ∀ (sids : List ℕ) (acc : List ℤ × ℕ) (i : ℕ), i < acc.2 →
      (write_seqs_slots bs so proc sched sids acc).1[i]? = acc.1[i]?
  | [], _, _, _ => rfl
  | sid :: rest, acc, i, h => by
    rw [write_seqs_slots, wseqs_get_low bs so proc sched rest _ i (by omega)]
    exact wss_get_outside bs _ proc sched acc.2 acc.1 i (Or.inl h)

/-- the sequence loop writes the si-th sequence's token t at flat index
acc.2 + si * sched + t. -/
theorem wseqs_get_target (bs : ℕ) (so : SchedulerOutput) (proc sched : ℕ) :
    ∀ (sids : List ℕ) (acc : List ℤ × ℕ),
      acc.2 + sched * sids.length ≤ acc.1.length →
      ∀ (si : ℕ), si < sids.length → ∀ (t : ℕ), t < sched →
      (write_seqs_slots bs so proc sched sids acc).1[acc.2 + si * sched + t]?
        = some (slot_for bs (so.block_tables (sids.getD si 0)) (proc + t))
  | [], _, _, si, hsi, _, _ => by simp at hsi
  | sid :: rest, acc, hb, si, hsi, t, ht => by
    have hlen : sched * (sid :: rest).length = sched * rest.length + sched := by
      simp [List.length_cons, Nat.mul_succ]
    cases si with
    | zero =>
      rw [write_seqs_slots]
      have hlow : acc.2 + 0 * sched + t < acc.2 + sched := by omega
      rw [wseqs_get_low bs so proc sched rest _ _ (by omega)]
      have := wss_get_in bs (so.block_tables sid) proc sched acc.2 acc.1
        (by omega) t ht
      simpa using this
    | succ j =>
      rw [write_seqs_slots]
      have hidx : acc.2 + (j + 1) * sched + t
          = (acc.2 + sched) + j * sched + t := by
        rw [Nat.succ_mul]
        omega
      rw [hidx]
      have hrec := wseqs_get_target bs so proc sched rest
        (write_sequence_slots bs (so.block_tables sid) proc sched acc.2 acc.1,
         acc.2 + sched)
        (by
          simp only [wss_length]
          omega)
        j (by simpa using hsi) t ht
      simpa using hrec

/-- the group loop advances the flat offset by the batch contribution of
every group. -/
theorem wgroups_snd (bs : ℕ) (groups : List SequenceGroup) (so : SchedulerOutput) :
    ∀ (gids : List ℕ) (acc : List ℤ × ℕ),
      (write_groups bs groups so gids acc).2
        = acc.2 + (gids.map (group_batch groups)).sum
  | [], acc => by simp [write_groups]
  | gid :: rest, acc => by
    rw [write_groups, wgroups_snd bs groups so rest, write_group_slots,
      wseqs_snd]
    simp only [List.map_cons, List.sum_cons, group_batch]
    omega

/-- the group loop preserves the tensor length. -/
theorem wgroups_length (bs : ℕ) (groups : List SequenceGroup) (so : SchedulerOutput) :
    ∀ (gids : List ℕ) (acc : List ℤ × ℕ),
      (write_groups bs groups so gids acc).1.length = acc.1.length
  | [], _ => rfl
  | gid :: rest, acc => by
    rw [write_groups, wgroups_length bs groups so rest, write_group_slots,
      wseqs_length]

/-- the group loop does not write below its starting offset. -/
theorem wgroups_get_low (bs : ℕ) (groups : List SequenceGroup) (so : SchedulerOutput) :
    ∀ (gids : List ℕ) (acc : List ℤ × ℕ) (i : ℕ), i < acc.2 →
      (write_groups bs groups so gids acc).1[i]? = acc.1[i]?
  | [], _, _, _ => rfl
  | gid :: rest, acc, i, h => by
    rw [write_groups, wgroups_get_low bs groups so rest _ i
      (by rw [write_group_slots, wseqs_snd]; omega)]
    rw [write_group_slots]
    exact wseqs_get_low bs so _ _ _ acc i h

/-- the group loop writes token t of the si-th running sequence of the gi-th
scheduled group at the flat index given by the preceding groups' batch
contributions. -/
theorem wgroups_get_target (bs : ℕ) (groups : List SequenceGroup)
    (so : SchedulerOutput) :
    ∀ (gids : List ℕ) (acc : List ℤ × ℕ),
      acc.2 + (gids.map (group_batch groups)).sum ≤ acc.1.length →
      ∀ (gi : ℕ), gi < gids.length →
      ∀ (si : ℕ),
        si < (groups.getD (gids.getD gi 0) default).running_sequence_ids.length →
      ∀ (t : ℕ), t < (groups.getD (gids.getD gi 0) default).num_scheduled_tokens →
      (write_groups bs groups so gids acc).1[acc.2
          + ((gids.take gi).map (group_batch groups)).sum
          + si * (groups.getD (gids.getD gi 0) default).num_scheduled_tokens + t]?
        = some (slot_for bs
            (so.block_tables
              ((groups.getD (gids.getD gi 0) default).running_sequence_ids.getD si 0))
            ((groups.getD (gids.getD gi 0) default).num_processed_tokens + t))
  | [], _, _, gi, hgi, _, _, _, _ => by simp at hgi
  | gid :: rest, acc, hb, gi, hgi, si, hsi, t, ht => by
    cases gi with
    | zero =>
      simp only [List.getD_cons_zero, List.take_zero, List.map_nil,
        List.sum_nil] at hsi ht ⊢
      have hin : si * (groups.getD gid default).num_scheduled_tokens + t
          < group_batch groups gid := by
        rw [group_batch]
        calc si * (groups.getD gid default).num_scheduled_tokens + t
            < (si + 1) * (groups.getD gid default).num_scheduled_tokens := by
              rw [Nat.succ_mul]; omega
          _ ≤ (groups.getD gid default).running_sequence_ids.length
                * (groups.getD gid default).num_scheduled_tokens :=
              Nat.mul_le_mul_right _ (by omega)
          _ = (groups.getD gid default).num_scheduled_tokens
                * (groups.getD gid default).running_sequence_ids.length :=
              Nat.mul_comm _ _
      rw [write_groups, wgroups_get_low bs groups so rest _ _
        (by rw [write_group_slots, wseqs_snd]
            have : (group_batch groups gid)
                = (groups.getD gid default).num_scheduled_tokens
                  * (groups.getD gid default).running_sequence_ids.length := rfl
            omega)]
      rw [write_group_slots]
      have hseq := wseqs_get_target bs so
        (groups.getD gid default).num_processed_tokens
        (groups.getD gid default).num_scheduled_tokens
        (groups.getD gid default).running_sequence_ids acc
        (by
          simp only [List.map_cons, List.sum_cons, group_batch] at hb
          omega)
        si hsi t ht
      have hidx : acc.2 + 0 + si * (groups.getD gid default).num_scheduled_tokens + t
          = acc.2 + si * (groups.getD gid default).num_scheduled_tokens + t := by omega
      rw [hidx]
      exact hseq
    | succ j =>
      simp only [List.getD_cons_succ]
      rw [write_groups]
      have hsnd : (write_group_slots bs so (groups.getD gid default) acc).2
          = acc.2 + group_batch groups gid := by
        rw [write_group_slots, wseqs_snd]
        rfl
      have hidx : acc.2 + (((gid :: rest).take (j + 1)).map (group_batch groups)).sum
            + si * (groups.getD (rest.getD j 0) default).num_scheduled_tokens + t
          = (acc.2 + group_batch groups gid)
            + ((rest.take j).map (group_batch groups)).sum
            + si * (groups.getD (rest.getD j 0) default).num_scheduled_tokens + t := by
        simp only [List.take_succ_cons, List.map_cons, List.sum_cons]
        omega
      rw [hidx, ← hsnd]
      have hrec := wgroups_get_target bs groups so rest
        (write_group_slots bs so (groups.getD gid default) acc)
        (by
          rw [hsnd, write_group_slots, wseqs_length]
          simp only [List.map_cons, List.sum_cons] at hb
          omega)
        j (by simpa using hgi) si hsi t ht
      exact hrec

end ModelRunner

/-- C1: in the tensor pack of ModelRunner::forward, the slot_mapping entry
written for the token at logical position p = num_processed_tokens + t of
any running sequence of any scheduled group equals
block_size * block_table[p / block_size] + p % block_size, where the block
table entry is the physical index of the sequence's block at position
floor(p / block_size). -/
theorem forward_slot_mapping_correct (bs : ℕ) (groups : List ModelRunner.SequenceGroup)
    (so : ModelRunner.SchedulerOutput) (gi si t : ℕ)
    (hgi : gi < so.scheduled_sequence_groups_ids.length)
    (hsi : si < (ModelRunner.scheduled_group groups so gi).running_sequence_ids.length)
    (ht : t < (ModelRunner.scheduled_group groups so gi).num_scheduled_tokens)
    (_hbt : ((ModelRunner.scheduled_group groups so gi).num_processed_tokens + t) / bs
        < (so.block_tables
            ((ModelRunner.scheduled_group groups so gi).running_sequence_ids.getD si 0)).length) :
    (ModelRunner.forward_slot_mapping bs groups so)[ModelRunner.flat_offset groups so gi si + t]?
      = some (((bs * ((so.block_tables
            ((ModelRunner.scheduled_group groups so gi).running_sequence_ids.getD si 0)).getD
              (((ModelRunner.scheduled_group groups so gi).num_processed_tokens + t) / bs) 0)
          + ((ModelRunner.scheduled_group groups so gi).num_processed_tokens + t) % bs : ℕ) : ℤ)) := by
  have hkey := ModelRunner.wgroups_get_target bs groups so
    so.scheduled_sequence_groups_ids
    (List.replicate (ModelRunner.batch_size groups so) 0, 0)
    (by
      simp only [List.length_replicate, ModelRunner.batch_size]
      omega)
    gi hgi si (by simpa [ModelRunner.scheduled_group] using hsi)
    t (by simpa [ModelRunner.scheduled_group] using ht)
  rw [ModelRunner.forward_slot_mapping]
  have hidx : ModelRunner.flat_offset groups so gi si + t
      = (0 : ℕ) + ((so.scheduled_sequence_groups_ids.take gi).map
          (ModelRunner.group_batch groups)).sum
        + si * (groups.getD (so.scheduled_sequence_groups_ids.getD gi 0) default).num_scheduled_tokens
        + t := by
    rw [ModelRunner.flat_offset, ModelRunner.scheduled_group]
    omega
  rw [hidx]
  rw [hkey]
  rw [ModelRunner.slot_for, ModelRunner.scheduled_group]

/-- C1 witness: a concrete two-group pack with block size 4 — group 1 (one
scheduled token at position 3 for each of sequences 8 and 9) has its
sequence 8 slot written at flat index 2 with value 4 * 20 + 3 = 83. -/
theorem forward_slot_mapping_correct_witness :
    (ModelRunner.forward_slot_mapping 4 [⟨[7], 2, 5⟩, ⟨[8, 9], 1, 3⟩]
        ⟨[0, 1], fun sid => if sid = 7 then [10, 11] else [20, 21]⟩)[
      ModelRunner.flat_offset [⟨[7], 2, 5⟩, ⟨[8, 9], 1, 3⟩]
        ⟨[0, 1], fun sid => if sid = 7 then [10, 11] else [20, 21]⟩ 1 0 + 0]?
      = some ((4 * 20 + 3 : ℕ) : ℤ) := by
  have h := forward_slot_mapping_correct 4 [⟨[7], 2, 5⟩, ⟨[8, 9], 1, 3⟩]
    ⟨[0, 1], fun sid => if sid = 7 then [10, 11] else [20, 21]⟩ 1 0 0
    (by decide) (by decide) (by decide) (by decide)
  rw [h]
  rfl

/-! ### C2 — read_all reconstruction: utility lemmas -/

namespace ReadAll

/-- lookup succeeds exactly on present keys. -/
theorem acontains_true_iff {α : Type} (m : List (ℕ × α)) (k : ℕ) :
    acontains m k = true ↔ k ∈ akeys m := by
  induction m with
  | nil => simp [acontains, alookup, akeys]
  | cons e rest ih =>
    rw [acontains, alookup]
    split_ifs with h
    · simp [akeys, ← h]
    · rw [← acontains, ih]
      simp only [akeys, List.map_cons, List.mem_cons]
      constructor
      · exact fun hk => Or.inr hk
      · rintro (hk | hk)
        · exact absurd hk.symm h
        · exact hk

/-- lookup fails exactly on absent keys. -/
theorem acontains_false_iff {α : Type} (m : List (ℕ × α)) (k : ℕ) :
    acontains m k = false ↔ k ∉ akeys m := by
  rw [← acontains_true_iff]
  cases acontains m k <;> simp

/-- a failing lookup means the key is absent. -/
theorem alookup_none_iff {α : Type} (m : List (ℕ × α)) (k : ℕ) :
    alookup m k = none ↔ k ∉ akeys m := by
  rw [← acontains_false_iff, acontains]
  cases alookup m k <;> simp

/-- a successful lookup returns an element of the list. -/
theorem mem_of_alookup {α : Type} :
    ∀ (m : List (ℕ × α)) (k : ℕ) (v : α), alookup m k = some v → (k, v) ∈ m
  | [], _, _, h => by simp [alookup] at h
  | e :: rest, k, v, h => by
    rw [alookup] at h
    split_ifs at h with he
    · have hv : e.2 = v := by injection h
      exact List.mem_cons.mpr (Or.inl (by rw [← he, ← hv]))
    · exact List.mem_cons_of_mem _ (mem_of_alookup rest k v h)

/-- with nodup keys, membership determines the lookup result. -/
theorem alookup_of_mem_nodup {α : Type} :
    ∀ (m : List (ℕ × α)) (k : ℕ) (v : α), (akeys m).Nodup → (k, v) ∈ m →
      alookup m k = some v
  | [], _, _, _, h => absurd h (by simp)
  | e :: rest, k, v, hnd, h => by
    rw [akeys, List.map_cons, List.nodup_cons] at hnd
    rcases List.mem_cons.mp h with he | hm
    · rw [alookup, if_pos (by rw [← he])]
      rw [← he]
    · have hk : k ∈ akeys rest := by
        rw [akeys]
        exact List.mem_map.mpr ⟨(k, v), hm, rfl⟩
      have hne : e.1 ≠ k := fun hh => hnd.1 (hh ▸ hk)
      rw [alookup, if_neg hne]
      exact alookup_of_mem_nodup rest k v hnd.2 hm

/-- aset keeps the key list. -/
theorem akeys_aset {α : Type} (m : List (ℕ × α)) (k : ℕ) (v : α) :
    akeys (aset m k v) = akeys m := by
  induction m with
  | nil => rfl
  | cons e rest ih =>
    by_cases h : e.1 = k
    · simp only [aset, List.map_cons, if_pos h, akeys] at *
      simp [ih, h]
    · simp only [aset, List.map_cons, if_neg h, akeys] at *
      simp [ih]

/-- aset rewrites the value at the key. -/
theorem alookup_aset_self {α : Type} :
    ∀ (m : List (ℕ × α)) (k : ℕ) (v : α),
      alookup (aset m k v) k = (alookup m k).map (fun _ => v)
  | [], _, _ => rfl
  | e :: rest, k, v => by
    by_cases h : e.1 = k
    · rw [aset, List.map_cons, if_pos h, alookup, if_pos rfl, alookup, if_pos h]
      rfl
    · rw [aset, List.map_cons, if_neg h, alookup, if_neg h, alookup, if_neg h]
      exact alookup_aset_self rest k v

/-- aset leaves other keys alone. -/
theorem alookup_aset_ne {α : Type} :
    ∀ (m : List (ℕ × α)) (k k' : ℕ) (v : α), k' ≠ k →
      alookup (aset m k v) k' = alookup m k'
  | [], _, _, _, _ => rfl
  | e :: rest, k, k', v, h => by
    by_cases he : e.1 = k
    · rw [aset, List.map_cons, if_pos he, alookup,
        if_neg (fun hh : k = k' => h hh.symm), alookup,
        if_neg (fun hh : e.1 = k' => h (he ▸ hh).symm)]
      exact alookup_aset_ne rest k k' v h
    · rw [aset, List.map_cons, if_neg he, alookup, alookup]
      by_cases he' : e.1 = k'
      · rw [if_pos he', if_pos he']
      · rw [if_neg he', if_neg he']
        exact alookup_aset_ne rest k k' v h

/-- elements of an aset list are the replacement or untouched originals. -/
theorem mem_aset {α : Type} (m : List (ℕ × α)) (k : ℕ) (v : α) (e : ℕ × α) :
    e ∈ aset m k v → (e = (k, v) ∧ k ∈ akeys m) ∨ (e ∈ m ∧ e.1 ≠ k) := by
  intro h
  rw [aset] at h
  rcases List.mem_map.mp h with ⟨f, hf, hfe⟩
  by_cases hk : f.1 = k
  · rw [if_pos hk] at hfe
    exact Or.inl ⟨hfe.symm, by rw [← hk, akeys]; exact List.mem_map.mpr ⟨f, hf, rfl⟩⟩
  · rw [if_neg hk] at hfe
    exact Or.inr ⟨hfe ▸ hf, hfe ▸ hk⟩

/-- the keys of two pointwise-matching maps agree. -/
theorem matches_keys (chunks : List (List ℤ)) :
    ∀ (inter : List (ℕ × IntermediateResult)) (sp : List (ℕ × SpecEntry)),
      Matches chunks inter sp → akeys inter = akeys sp
  | [], [], _ => rfl
  | [], _ :: _, h => by cases h
  | _ :: _, [], h => by cases h
  | e :: it, s :: st, h => by
    rcases List.forall₂_cons.mp h with ⟨h1, h2⟩
    simp only [akeys, List.map_cons]
    rw [h1.1]
    have hrec := matches_keys chunks it st h2
    simp only [akeys] at hrec
    rw [hrec]

/-- matching maps agree on lookup failure. -/
theorem matches_alookup_none (chunks : List (List ℤ))
    (inter : List (ℕ × IntermediateResult)) (sp : List (ℕ × SpecEntry))
    (h : Matches chunks inter sp) (k : ℕ) :
    alookup inter k = none ↔ alookup sp k = none := by
  rw [alookup_none_iff, alookup_none_iff, matches_keys chunks inter sp h]

/-- matching maps agree on membership tests. -/
theorem matches_acontains (chunks : List (List ℤ))
    (inter : List (ℕ × IntermediateResult)) (sp : List (ℕ × SpecEntry))
    (h : Matches chunks inter sp) (k : ℕ) :
    acontains inter k = acontains sp k := by
  cases hc : acontains sp k
  · rw [acontains_false_iff, matches_keys chunks inter sp h,
      ← acontains_false_iff, hc]
  · rw [acontains_true_iff, matches_keys chunks inter sp h,
      ← acontains_true_iff, hc]

/-- a successful lookup in the chunk model corresponds to one in the spec
model with matching content. -/
theorem matches_alookup_some (chunks : List (List ℤ)) :
    ∀ (inter : List (ℕ × IntermediateResult)) (sp : List (ℕ × SpecEntry)),
      Matches chunks inter sp →
      ∀ (k : ℕ) (ir : IntermediateResult), alookup inter k = some ir →
      ∃ se, alookup sp k = some se ∧ chunk_tokens chunks ir = se.tokens ∧
        ir.cumulative_log_prob = se.log_prob
  | [], _, h, k, ir, hl => by
    cases h
    simp [alookup] at hl
  | e :: it, s :: st, h, k, ir, hl => by
    rcases List.forall₂_cons.mp h with ⟨h1, h2⟩
    rw [alookup] at hl
    split_ifs at hl with he
    · cases hl
      exact ⟨s.2, by rw [alookup, if_pos (h1.1 ▸ he)], h1.2.1, h1.2.2⟩
    · have := matches_alookup_some chunks it st h2 k ir hl
      rcases this with ⟨se, hse, hto, hlp⟩
      exact ⟨se, by rw [alookup, if_neg (fun hh => he (h1.1.trans hh))]; exact hse,
        hto, hlp⟩
  | _ :: _, [], h, _, _, _ => by cases h

/-- token lists are stable under any chunk change that preserves every
referenced chunk. -/
theorem matches_mono (chunks chunks' : List (List ℤ)) :
    ∀ (inter : List (ℕ × IntermediateResult)) (sp : List (ℕ × SpecEntry)),
      Matches chunks inter sp →
      (∀ e ∈ inter, chunk_tokens chunks' e.2 = chunk_tokens chunks e.2) →
      Matches chunks' inter sp
  | [], [], _, _ => List.Forall₂.nil
  | e :: it, s :: st, h, hs => by
    rcases List.forall₂_cons.mp h with ⟨h1, h2⟩
    exact List.forall₂_cons.mpr
      ⟨⟨h1.1, (hs e (List.mem_cons_self _ _)).trans h1.2.1, h1.2.2⟩,
       matches_mono chunks chunks' it st h2
         (fun f hf => hs f (List.mem_cons_of_mem _ hf))⟩
  | [], _ :: _, h, _ => by cases h
  | _ :: _, [], h, _ => by cases h

end ReadAll

namespace ReadAll

/-- indexing a freshly appended chunk. -/
theorem getD_concat_length (l : List (List ℤ)) (x : List ℤ) :
    (l ++ [x]).getD l.length [] = x := by
  simp [List.getD_eq_getElem?_getD, List.getElem?_append_right]

/-- indexing away from a set position. -/
theorem getD_set_ne (l : List (List ℤ)) (i j : ℕ) (v : List ℤ) (h : ¬ j = i) :
    (l.set j v).getD i [] = l.getD i [] := by
  simp [List.getD_eq_getElem?_getD, List.getElem?_set, h]

/-- indexing the set position. -/
theorem getD_set_self (l : List (List ℤ)) (j : ℕ) (v : List ℤ) (h : j < l.length) :
    (l.set j v).getD j [] = v := by
  simp [List.getD_eq_getElem?_getD, List.getElem?_set, h]

/-- a record's tokens are unchanged when chunks are appended past its
references. -/
theorem chunk_tokens_extend (chunks ext : List (List ℤ)) (ir : IntermediateResult)
    (h : ∀ i ∈ ir.output_chunks_indexes, i < chunks.length) :
    chunk_tokens (chunks ++ ext) ir = chunk_tokens chunks ir := by
  rw [chunk_tokens, chunk_tokens]
  congr 1
  exact List.map_congr_left (fun i hi => List.getD_append _ _ _ _ (h i hi))

/-- a record's tokens are unchanged when an unreferenced chunk is mutated. -/
theorem chunk_tokens_set_not_mem (chunks : List (List ℤ)) (q : ℕ) (v : List ℤ)
    (ir : IntermediateResult) (h : q ∉ ir.output_chunks_indexes) :
    chunk_tokens (chunks.set q v) ir = chunk_tokens chunks ir := by
  rw [chunk_tokens, chunk_tokens]
  congr 1
  exact List.map_congr_left
    (fun i hi => getD_set_ne chunks i q v (fun hh => h (hh ▸ hi)))

/-- pushing a token into a record's unshared last chunk appends the token to
its token list. -/
theorem chunk_tokens_append_at_last (chunks : List (List ℤ))
    (ir : IntermediateResult) (q : ℕ) (tok : ℤ)
    (hne : ir.output_chunks_indexes ≠ [])
    (hq : ir.output_chunks_indexes.getLastD 0 = q)
    (hnd : q ∉ ir.output_chunks_indexes.dropLast)
    (hlt : q < chunks.length) :
    chunk_tokens (append_at chunks q tok) ir = chunk_tokens chunks ir ++ [tok] := by
  have hdecomp : ir.output_chunks_indexes
      = ir.output_chunks_indexes.dropLast ++ [q] := by
    have h1 := List.dropLast_append_getLast hne
    rw [← hq]
    rw [List.getLastD_eq_getLast? _ _, List.getLast?_eq_getLast _ hne]
    simpa using h1.symm
  rw [chunk_tokens, chunk_tokens, hdecomp, List.map_append, List.map_append,
    List.flatten_append, List.flatten_append]
  have hpre : (ir.output_chunks_indexes.dropLast.map
        (fun i => (append_at chunks q tok).getD i []))
      = ir.output_chunks_indexes.dropLast.map (fun i => chunks.getD i []) :=
    List.map_congr_left (fun i hi => by
      rw [append_at]
      exact getD_set_ne chunks i q _ (fun hh => hnd (hh ▸ hi)))
  rw [hpre]
  have hlast : (append_at chunks q tok).getD q [] = chunks.getD q [] ++ [tok] := by
    rw [append_at]
    exact getD_set_self chunks q _ hlt
  simp only [List.map_cons, List.map_nil, List.flatten_cons, List.flatten_nil,
    List.append_nil]
  rw [hlast, List.append_assoc]

/-- a fresh chunk appended for a record extends its token list with the new
token. -/
theorem chunk_tokens_new_chunk (chunks : List (List ℤ)) (idxs : List ℕ)
    (tok : ℤ) (lp : ℤ) (h : ∀ i ∈ idxs, i < chunks.length) :
    chunk_tokens (chunks ++ [[tok]]) ⟨idxs ++ [chunks.length], lp⟩
      = chunk_tokens chunks ⟨idxs, lp⟩ ++ [tok] := by
  rw [chunk_tokens, chunk_tokens]
  simp only [List.map_append, List.flatten_append]
  have hpre : (idxs.map (fun i => (chunks ++ [[tok]]).getD i []))
      = idxs.map (fun i => chunks.getD i []) :=
    List.map_congr_left (fun i hi => List.getD_append _ _ _ _ (h i hi))
  rw [hpre]
  simp only [List.map_cons, List.map_nil, List.flatten_cons, List.flatten_nil,
    List.append_nil]
  rw [getD_concat_length]

/-- the last index of a record after appending an index. -/
theorem lastIdx_concat (l : List ℕ) (x : ℕ) (lp : ℤ) :
    lastIdx ⟨l ++ [x], lp⟩ = x := by
  rw [lastIdx]
  exact List.getLastD_concat _ _ _

/-- an index avoiding both the non-last positions and the last position of a
nonempty list avoids the list. -/
theorem not_mem_of_not_dropLast_ne_last (l : List ℕ) (x : ℕ) (h : l ≠ [])
    (h1 : x ∉ l.dropLast) (h2 : x ≠ l.getLastD 0) : x ∉ l := by
  intro hx
  rcases List.eq_nil_or_concat l with rfl | ⟨l2, b, rfl⟩
  · exact h rfl
  · simp at h1 h2 hx
    rcases hx with hx | hx
    · exact h1 hx
    · exact h2 hx

/-- Frozen yields: the last chunk of one record is not referenced by a
record with a different key. -/
theorem frozen_last_not_mem (inter : List (ℕ × IntermediateResult))
    (hf : Frozen inter) (e f : ℕ × IntermediateResult) (he : e ∈ inter)
    (hfm : f ∈ inter) (hne : e.1 ≠ f.1)
    (hfne : f.2.output_chunks_indexes ≠ []) :
    lastIdx e.2 ∉ f.2.output_chunks_indexes :=
  not_mem_of_not_dropLast_ne_last _ _ hfne (hf.1 e he f hfm)
    (hf.2 e he f hfm hne)

end ReadAll

namespace ReadAll

/-- keys of an appended map. -/
theorem akeys_append {α : Type} (m n : List (ℕ × α)) :
    akeys (m ++ n) = akeys m ++ akeys n := by
  rw [akeys, akeys, akeys, List.map_append]

/-- aset on both sides preserves matching when the replacement values match
and the other entries keep their tokens. -/
theorem matches_aset_both (chunks chunks' : List (List ℤ)) (k : ℕ)
    (v : IntermediateResult) (w : SpecEntry) :
    ∀ (inter : List (ℕ × IntermediateResult)) (sp : List (ℕ × SpecEntry)),
      Matches chunks inter sp →
      (∀ e ∈ inter, e.1 ≠ k → chunk_tokens chunks' e.2 = chunk_tokens chunks e.2) →
      chunk_tokens chunks' v = w.tokens →
      v.cumulative_log_prob = w.log_prob →
      Matches chunks' (aset inter k v) (aset sp k w)
  | [], [], _, _, _, _ => List.Forall₂.nil
  | e :: it, s :: st, h, hother, hv, hlp => by
    rcases List.forall₂_cons.mp h with ⟨h1, h2⟩
    rw [aset, List.map_cons, aset, List.map_cons]
    have hrec := matches_aset_both chunks chunks' k v w it st h2
      (fun f hf hne => hother f (List.mem_cons_of_mem _ hf) hne) hv hlp
    rw [aset, aset] at hrec
    by_cases hk : e.1 = k
    · rw [if_pos hk, if_pos (h1.1.symm.trans hk)]
      exact List.forall₂_cons.mpr ⟨⟨rfl, hv, hlp⟩, hrec⟩
    · rw [if_neg hk, if_neg (fun hh => hk (h1.1.trans hh))]
      exact List.forall₂_cons.mpr
        ⟨⟨h1.1, (hother e (List.mem_cons_self _ _) hk).trans h1.2.1, h1.2.2⟩, hrec⟩
  | [], _ :: _, h, _, _, _ => by cases h
  | _ :: _, [], h, _, _, _ => by cases h

/-- aset on the spec side only: used when the chunk side mutates a chunk in
place instead of touching the record. -/
theorem matches_aset_spec (chunks chunks' : List (List ℤ)) (k : ℕ) (w : SpecEntry) :
    ∀ (inter : List (ℕ × IntermediateResult)) (sp : List (ℕ × SpecEntry)),
      Matches chunks inter sp →
      (∀ e ∈ inter, e.1 ≠ k → chunk_tokens chunks' e.2 = chunk_tokens chunks e.2) →
      (∀ e ∈ inter, e.1 = k → chunk_tokens chunks' e.2 = w.tokens ∧
        e.2.cumulative_log_prob = w.log_prob) →
      Matches chunks' inter (aset sp k w)
  | [], [], _, _, _ => List.Forall₂.nil
  | e :: it, s :: st, h, hother, hsame => by
    rcases List.forall₂_cons.mp h with ⟨h1, h2⟩
    rw [aset, List.map_cons]
    have hrec := matches_aset_spec chunks chunks' k w it st h2
      (fun f hf hne => hother f (List.mem_cons_of_mem _ hf) hne)
      (fun f hf heq => hsame f (List.mem_cons_of_mem _ hf) heq)
    rw [aset] at hrec
    by_cases hk : s.1 = k
    · rw [if_pos hk]
      have he := hsame e (List.mem_cons_self _ _) (h1.1.trans hk)
      exact List.forall₂_cons.mpr ⟨⟨h1.1.trans hk, he.1, he.2⟩, hrec⟩
    · rw [if_neg hk]
      have hek : e.1 ≠ k := fun hh => hk (h1.1.symm.trans hh)
      exact List.forall₂_cons.mpr
        ⟨⟨h1.1, (hother e (List.mem_cons_self _ _) hek).trans h1.2.1, h1.2.2⟩, hrec⟩
  | [], _ :: _, h, _, _ => by cases h
  | _ :: _, [], h, _, _ => by cases h

/-- the drop filter acts identically on matching maps. -/
theorem matches_drop (chunks : List (List ℤ)) (last_ids iter_ids : List ℕ) :
    ∀ (inter : List (ℕ × IntermediateResult)) (sp : List (ℕ × SpecEntry)),
      Matches chunks inter sp →
      Matches chunks (drop_discontinued inter last_ids iter_ids)
        (drop_discontinued sp last_ids iter_ids)
  | [], [], _ => List.Forall₂.nil
  | e :: it, s :: st, h => by
    rcases List.forall₂_cons.mp h with ⟨h1, h2⟩
    have hrec := matches_drop chunks last_ids iter_ids it st h2
    rw [drop_discontinued, List.filter_cons, drop_discontinued, List.filter_cons]
    rw [drop_discontinued] at hrec
    rw [h1.1]
    split_ifs with hp
    · exact List.forall₂_cons.mpr ⟨h1, hrec⟩
    · exact hrec
  | [], _ :: _, h => by cases h
  | _ :: _, [], h => by cases h

/-- inserting fresh nodup keys is plain concatenation. -/
theorem insert_new_append {α : Type} :
    ∀ (news m : List (ℕ × α)), (∀ f ∈ news, f.1 ∉ akeys m) → (akeys news).Nodup →
      insert_new m news = m ++ news
  | [], m, _, _ => by simp [insert_new]
  | f :: rest, m, hf, hnd => by
    have hc : acontains m f.1 = false :=
      (acontains_false_iff m f.1).mpr (hf f (List.mem_cons_self _ _))
    rw [insert_new, List.foldl_cons, hc]
    have hnd2 : (akeys rest).Nodup := by
      rw [akeys, List.map_cons, List.nodup_cons] at hnd
      exact hnd.2
    have hfresh : ∀ g ∈ rest, g.1 ∉ akeys (m ++ [f]) := by
      intro g hg hmem
      rw [akeys_append] at hmem
      rcases List.mem_append.mp hmem with hmem | hmem
      · exact hf g (List.mem_cons_of_mem _ hg) hmem
      · rw [akeys, List.map_cons, List.nodup_cons] at hnd
        have : g.1 = f.1 := by simpa [akeys] using hmem
        exact hnd.1 (this ▸ List.mem_map.mpr ⟨g, hg, rfl⟩)
    have := insert_new_append rest (m ++ [f]) hfresh hnd2
    rw [insert_new] at this
    simp only [Bool.false_eq_true, if_false]
    rw [this, List.append_assoc]
    rfl

/-- the gathered results of matching maps coincide. -/
theorem gather_matches (chunks : List (List ℤ)) :
    ∀ (inter : List (ℕ × IntermediateResult)) (sp : List (ℕ × SpecEntry)),
      Matches chunks inter sp →
      inter.map (fun e => (chunk_tokens chunks e.2, e.2.cumulative_log_prob))
        = sp.map (fun e => (e.2.tokens, e.2.log_prob))
  | [], [], _ => rfl
  | e :: it, s :: st, h => by
    rcases List.forall₂_cons.mp h with ⟨h1, h2⟩
    rw [List.map_cons, List.map_cons, h1.2.1, h1.2.2,
      gather_matches chunks it st h2]
  | [], _ :: _, h => by cases h
  | _ :: _, [], h => by cases h

/-- pass2 leaves records keyed outside the iteration untouched. -/
theorem pass2_alookup_preserve (forked : List ℕ) :
    ∀ (iter : Iteration) (chunks : List (List ℤ))
      (inter : List (ℕ × IntermediateResult))
      (chunks₂ : List (List ℤ)) (inter₂ : List (ℕ × IntermediateResult)),
      pass2 forked iter chunks inter = some (chunks₂, inter₂) →
      ∀ k, k ∉ akeys iter → alookup inter₂ k = alookup inter k
  | [], chunks, inter, chunks₂, inter₂, h, k, hk => by
    rw [pass2] at h
    cases h
    rfl
  | (id, out) :: rest, chunks, inter, chunks₂, inter₂, h, k, hk => by
    have hkid : k ≠ id := by
      intro hh
      exact hk (by rw [hh, akeys, List.map_cons]; exact List.mem_cons_self _ _)
    have hkrest : k ∉ akeys rest := by
      intro hh
      exact hk (by rw [akeys, List.map_cons]; exact List.mem_cons_of_mem _ hh)
    rw [pass2] at h
    rcases hl : alookup inter id with _ | ir
    · simp only [hl] at h
      exact pass2_alookup_preserve forked rest chunks inter chunks₂ inter₂ h k hkrest
    · simp only [hl] at h
      split_ifs at h with hfk
      · have := pass2_alookup_preserve forked rest _ _ chunks₂ inter₂ h k hkrest
        rw [this, alookup_aset_ne _ _ _ _ hkid]
      · rcases hq : ir.output_chunks_indexes.getLast? with _ | q
        · simp only [hq] at h
          exact Option.noConfusion h
        · simp only [hq] at h
          exact pass2_alookup_preserve forked rest _ _ chunks₂ inter₂ h k hkrest

end ReadAll

namespace ReadAll

/-- the default last element of a nonempty list is a member. -/
theorem getLastD_mem_of_ne_nil (l : List ℕ) (h : l ≠ []) : l.getLastD 0 ∈ l := by
  rcases List.eq_nil_or_concat l with rfl | ⟨l2, b, rfl⟩
  · exact absurd rfl h
  · simp [List.concat_eq_append, List.getLastD_concat]

/-- under BoundOk every record's last chunk index is a live chunk. -/
theorem boundok_last (chunks : List (List ℤ))
    (inter : List (ℕ × IntermediateResult)) (hb : BoundOk chunks inter)
    (e : ℕ × IntermediateResult) (he : e ∈ inter) :
    lastIdx e.2 < chunks.length := by
  rcases hb e he with ⟨hne, hlt⟩
  exact hlt _ (getLastD_mem_of_ne_nil _ hne)

/-- simulation through the first-iteration branch of read_all: every
sequence becomes a fresh root record whose single chunk holds its token. -/
theorem first_pass_sim :
    ∀ (iter : Iteration) (chunks : List (List ℤ))
      (inter : List (ℕ × IntermediateResult)) (sp : List (ℕ × SpecEntry)),
      Matches chunks inter sp →
      BoundOk chunks inter →
      Frozen inter →
      (akeys inter).Nodup →
      (akeys iter).Nodup →
      (∀ k ∈ akeys iter, k ∉ akeys inter) →
      Matches (first_pass iter chunks inter).1 (first_pass iter chunks inter).2
          (spec_first_pass iter sp) ∧
        BoundOk (first_pass iter chunks inter).1 (first_pass iter chunks inter).2 ∧
        Frozen (first_pass iter chunks inter).2 ∧
        akeys (first_pass iter chunks inter).2 = akeys inter ++ akeys iter
  | [], chunks, inter, sp, hm, hb, hf, _, _, _ => by
    rw [first_pass, spec_first_pass]
    exact ⟨hm, hb, hf, by simp [akeys]⟩
  | (id, out) :: rest, chunks, inter, sp, hm, hb, hf, hnk, hnd, hdisj => by
    have hidfresh : id ∉ akeys inter :=
      hdisj id (by rw [akeys, List.map_cons]; exact List.mem_cons_self _ _)
    have hc : acontains inter id = false := (acontains_false_iff _ _).mpr hidfresh
    have hcs : acontains sp id = false := by
      rw [← matches_acontains chunks inter sp hm]
      exact hc
    rw [first_pass, spec_first_pass]
    simp only [add_output_chunk, hc, hcs, Bool.false_eq_true, if_false,
      List.nil_append]
    set tok := out.token_id with htok
    set lp := out.cumulative_log_prob with hlp
    set inter1 := inter ++ [(id, (⟨[chunks.length], lp⟩ : IntermediateResult))]
      with hinter1
    set sp1 := sp ++ [(id, (⟨[tok], lp⟩ : SpecEntry))] with hsp1
    set chunks1 := chunks ++ [[tok]] with hchunks1
    have hlen1 : chunks1.length = chunks.length + 1 := by
      rw [hchunks1, List.length_append, List.length_cons, List.length_nil]
    have hm1 : Matches chunks1 inter1 sp1 := by
      apply List.rel_append
      · exact matches_mono chunks chunks1 inter sp hm
          (fun e he => chunk_tokens_extend chunks [[tok]] e.2 (hb e he).2)
      · refine List.forall₂_cons.mpr ⟨⟨rfl, ?_, rfl⟩, List.Forall₂.nil⟩
        have hnew := chunk_tokens_new_chunk chunks [] tok lp (by simp)
        rw [List.nil_append] at hnew
        rw [hchunks1, hnew]
        rfl
    have hb1 : BoundOk chunks1 inter1 := by
      intro e he
      rcases List.mem_append.mp he with he | he
      · rcases hb e he with ⟨h1, h2⟩
        exact ⟨h1, fun i hi => by rw [hlen1]; exact Nat.lt_succ_of_lt (h2 i hi)⟩
      · rcases List.mem_singleton.mp he with rfl
        refine ⟨by simp, ?_⟩
        intro i hi
        rw [List.mem_singleton.mp hi, hlen1]
        exact Nat.lt_succ_self _
    have hf1 : Frozen inter1 := by
      constructor
      · intro e he f hfm
        rcases List.mem_append.mp he with he | he
        · rcases List.mem_append.mp hfm with hfm | hfm
          · exact hf.1 e he f hfm
          · rcases List.mem_singleton.mp hfm with rfl
            simp
        · rcases List.mem_singleton.mp he with rfl
          have hlaste : lastIdx (⟨[chunks.length], lp⟩ : IntermediateResult)
              = chunks.length := by simp [lastIdx]
          rcases List.mem_append.mp hfm with hfm | hfm
          · intro hmem
            have hsub : f.2.output_chunks_indexes.dropLast.Sublist
                f.2.output_chunks_indexes := List.dropLast_sublist _
            have := (hb f hfm).2 _ (hsub.subset hmem)
            rw [hlaste] at this
            exact absurd this (by omega)
          · rcases List.mem_singleton.mp hfm with rfl
            simp
      · intro e he f hfm hne
        rcases List.mem_append.mp he with he | he
        · rcases List.mem_append.mp hfm with hfm | hfm
          · exact hf.2 e he f hfm hne
          · rcases List.mem_singleton.mp hfm with rfl
            have h1 := boundok_last chunks inter hb e he
            have h2 : lastIdx (⟨[chunks.length], lp⟩ : IntermediateResult)
                = chunks.length := by simp [lastIdx]
            rw [h2]
            omega
        · rcases List.mem_singleton.mp he with rfl
          rcases List.mem_append.mp hfm with hfm | hfm
          · have h1 := boundok_last chunks inter hb f hfm
            have h2 : lastIdx (⟨[chunks.length], lp⟩ : IntermediateResult)
                = chunks.length := by simp [lastIdx]
            rw [h2]
            omega
          · rcases List.mem_singleton.mp hfm with rfl
            exact absurd rfl hne
    have hnk1 : (akeys inter1).Nodup := by
      rw [hinter1, akeys_append, List.nodup_append]
      refine ⟨hnk, by simp [akeys], ?_⟩
      intro a ha hmem
      have : a = id := by simpa [akeys] using hmem
      exact hidfresh (this ▸ ha)
    have hnd1 : (akeys rest).Nodup := by
      rw [akeys, List.map_cons, List.nodup_cons] at hnd
      exact hnd.2
    have hdisj1 : ∀ k ∈ akeys rest, k ∉ akeys inter1 := by
      intro k hk hmem
      rw [hinter1, akeys_append] at hmem
      rcases List.mem_append.mp hmem with hmem | hmem
      · exact hdisj k (by rw [akeys, List.map_cons]; exact List.mem_cons_of_mem _ hk)
          hmem
      · have hkid : k = id := by simpa [akeys] using hmem
        rw [akeys, List.map_cons, List.nodup_cons] at hnd
        exact hnd.1 (hkid ▸ hk)
    have hrec := first_pass_sim rest chunks1 inter1 sp1 hm1 hb1 hf1 hnk1 hnd1 hdisj1
    refine ⟨hrec.1, hrec.2.1, hrec.2.2.1, ?_⟩
    rw [hrec.2.2.2, hinter1, akeys_append]
    simp [akeys]

end ReadAll

namespace ReadAll

/-- every member of a nonempty list is a non-last member or the last one. -/
theorem mem_dropLast_or_last (l : List ℕ) (h : l ≠ []) (i : ℕ) (hi : i ∈ l) :
    i ∈ l.dropLast ∨ i = l.getLastD 0 := by
  rcases List.eq_nil_or_concat l with rfl | ⟨l2, b, rfl⟩
  · exact absurd rfl h
  · simp only [List.concat_eq_append, List.dropLast_concat,
      List.getLastD_concat]
    rcases (by simpa using hi : i ∈ l2 ∨ i = b) with hi2 | hi2
    · exact Or.inl hi2
    · exact Or.inr hi2

/-- under the news shape bundle, every chunk index of a news record is
live. -/
theorem news_idx_bound (chunks : List (List ℤ)) (L0 : ℕ)
    (f : ℕ × IntermediateResult)
    (hsh : f.2.output_chunks_indexes ≠ [] ∧
      (∀ i ∈ f.2.output_chunks_indexes.dropLast, i < L0) ∧
      L0 ≤ lastIdx f.2 ∧ lastIdx f.2 < chunks.length)
    (hL0 : L0 ≤ chunks.length) :
    ∀ i ∈ f.2.output_chunks_indexes, i < chunks.length := by
  intro i hi
  rcases mem_dropLast_or_last _ hsh.1 i hi with hi | hi
  · exact lt_of_lt_of_le (hsh.2.1 i hi) hL0
  · rw [hi]
    exact hsh.2.2.2

/-- one new-sequence step of pass1: appending a fresh chunk for a new record
re-establishes every accumulator invariant. -/
theorem pass1_step (inter : List (ℕ × IntermediateResult))
    (sp : List (ℕ × SpecEntry)) (L0 : ℕ) (chunks : List (List ℤ))
    (news : List (ℕ × IntermediateResult)) (spn : List (ℕ × SpecEntry))
    (forked' : List ℕ) (id : ℕ) (tok lp : ℤ)
    (base : List ℕ) (baseTok : List ℤ)
    (hbi : ∀ e ∈ inter, e.2.output_chunks_indexes ≠ [] ∧
      ∀ i ∈ e.2.output_chunks_indexes, i < L0)
    (hL0 : L0 ≤ chunks.length)
    (hm : Matches chunks inter sp)
    (hmn : Matches chunks news spn)
    (hsh : ∀ f ∈ news, f.2.output_chunks_indexes ≠ [] ∧
      (∀ i ∈ f.2.output_chunks_indexes.dropLast, i < L0) ∧
      L0 ≤ lastIdx f.2 ∧ lastIdx f.2 < chunks.length)
    (hlink : ∀ f ∈ news, f.2.output_chunks_indexes.dropLast = [] ∨
      ∃ p ∈ inter, p.1 ∈ forked' ∧
        f.2.output_chunks_indexes.dropLast = p.2.output_chunks_indexes)
    (hpl : ∀ f ∈ news, ∀ g ∈ news, f.1 ≠ g.1 → lastIdx f.2 ≠ lastIdx g.2)
    (hnknews : (akeys news).Nodup)
    (hfreshnews : ∀ f ∈ news, f.1 ∉ akeys inter)
    (hidnews : id ∉ akeys news)
    (hidinter : id ∉ akeys inter)
    (hbase : ∀ i ∈ base, i < L0)
    (hbtok : chunk_tokens chunks ⟨base, lp⟩ = baseTok)
    (hblink : base = [] ∨ ∃ p ∈ inter, p.1 ∈ forked' ∧
      base = p.2.output_chunks_indexes) :
    L0 ≤ (chunks ++ [[tok]]).length ∧
    Matches (chunks ++ [[tok]]) inter sp ∧
    Matches (chunks ++ [[tok]])
      (news ++ [(id, ⟨base ++ [chunks.length], lp⟩)])
      (spn ++ [(id, ⟨baseTok ++ [tok], lp⟩)]) ∧
    (∀ f ∈ news ++ [(id, (⟨base ++ [chunks.length], lp⟩ : IntermediateResult))],
      f.2.output_chunks_indexes ≠ [] ∧
      (∀ i ∈ f.2.output_chunks_indexes.dropLast, i < L0) ∧
      L0 ≤ lastIdx f.2 ∧ lastIdx f.2 < (chunks ++ [[tok]]).length) ∧
    (∀ f ∈ news ++ [(id, (⟨base ++ [chunks.length], lp⟩ : IntermediateResult))],
      f.2.output_chunks_indexes.dropLast = [] ∨
      ∃ p ∈ inter, p.1 ∈ forked' ∧
        f.2.output_chunks_indexes.dropLast = p.2.output_chunks_indexes) ∧
    (∀ f ∈ news ++ [(id, (⟨base ++ [chunks.length], lp⟩ : IntermediateResult))],
      ∀ g ∈ news ++ [(id, (⟨base ++ [chunks.length], lp⟩ : IntermediateResult))],
      f.1 ≠ g.1 → lastIdx f.2 ≠ lastIdx g.2) ∧
    (akeys (news ++ [(id, (⟨base ++ [chunks.length], lp⟩ : IntermediateResult))])).Nodup ∧
    (∀ f ∈ news ++ [(id, (⟨base ++ [chunks.length], lp⟩ : IntermediateResult))],
      f.1 ∉ akeys inter) := by
  have hlen1 : (chunks ++ [[tok]]).length = chunks.length + 1 := by
    rw [List.length_append, List.length_cons, List.length_nil]
  have hnewlast : lastIdx (⟨base ++ [chunks.length], lp⟩ : IntermediateResult)
      = chunks.length := lastIdx_concat base chunks.length lp
  refine ⟨by omega, ?_, ?_, ?_, ?_, ?_, ?_, ?_⟩
  · exact matches_mono chunks _ inter sp hm
      (fun e he => chunk_tokens_extend chunks [[tok]] e.2
        (fun i hi => lt_of_lt_of_le ((hbi e he).2 i hi) hL0))
  · apply List.rel_append
    · exact matches_mono chunks _ news spn hmn
        (fun f hf => chunk_tokens_extend chunks [[tok]] f.2
          (news_idx_bound chunks L0 f (hsh f hf) hL0))
    · refine List.forall₂_cons.mpr ⟨⟨rfl, ?_, rfl⟩, List.Forall₂.nil⟩
      have hnew := chunk_tokens_new_chunk chunks base tok lp
        (fun i hi => lt_of_lt_of_le (hbase i hi) hL0)
      rw [hnew, hbtok]
  · intro f hf
    rcases List.mem_append.mp hf with hf | hf
    · rcases hsh f hf with ⟨h1, h2, h3, h4⟩
      exact ⟨h1, h2, h3, by omega⟩
    · rcases List.mem_singleton.mp hf with rfl
      refine ⟨by simp, ?_, ?_, ?_⟩
      · intro i hi
        rw [List.dropLast_concat] at hi
        exact hbase i hi
      · rw [hnewlast]
        exact hL0
      · rw [hnewlast]
        omega
  · intro f hf
    rcases List.mem_append.mp hf with hf | hf
    · exact hlink f hf
    · rcases List.mem_singleton.mp hf with rfl
      simp only [List.dropLast_concat]
      exact hblink
  · intro f hf g hg hne
    rcases List.mem_append.mp hf with hf | hf
    · rcases List.mem_append.mp hg with hg | hg
      · exact hpl f hf g hg hne
      · rcases List.mem_singleton.mp hg with rfl
        rw [hnewlast]
        have := (hsh f hf).2.2.2
        omega
    · rcases List.mem_singleton.mp hf with rfl
      rcases List.mem_append.mp hg with hg | hg
      · rw [hnewlast]
        have := (hsh g hg).2.2.2
        omega
      · rcases List.mem_singleton.mp hg with rfl
        exact absurd rfl hne
  · rw [akeys_append, List.nodup_append]
    refine ⟨hnknews, by simp [akeys], ?_⟩
    intro a ha hmem
    have : a = id := by simpa [akeys] using hmem
    exact hidnews (this ▸ ha)
  · intro f hf
    rcases List.mem_append.mp hf with hf | hf
    · exact hfreshnews f hf
    · rcases List.mem_singleton.mp hf with rfl
      exact hidinter

/-- simulation through the first pass of a non-initial iteration: newly
appearing sequences are collected with their parents' chunks copied, and the
specification model collects the corresponding token lists.  Both models
fail together (on an unknown parent id). -/
theorem pass1_sim (inter : List (ℕ × IntermediateResult))
    (sp : List (ℕ × SpecEntry)) (L0 : ℕ)
    (hbi : ∀ e ∈ inter, e.2.output_chunks_indexes ≠ [] ∧
      ∀ i ∈ e.2.output_chunks_indexes, i < L0) :
    ∀ (iter : Iteration) (chunks : List (List ℤ))
      (news : List (ℕ × IntermediateResult)) (forked : List ℕ)
      (spn : List (ℕ × SpecEntry)),
      L0 ≤ chunks.length →
      Matches chunks inter sp →
      Matches chunks news spn →
      (∀ f ∈ news, f.2.output_chunks_indexes ≠ [] ∧
        (∀ i ∈ f.2.output_chunks_indexes.dropLast, i < L0) ∧
        L0 ≤ lastIdx f.2 ∧ lastIdx f.2 < chunks.length) →
      (∀ f ∈ news, f.2.output_chunks_indexes.dropLast = [] ∨
        ∃ p ∈ inter, p.1 ∈ forked ∧
          f.2.output_chunks_indexes.dropLast = p.2.output_chunks_indexes) →
      (∀ f ∈ news, ∀ g ∈ news, f.1 ≠ g.1 → lastIdx f.2 ≠ lastIdx g.2) →
      (akeys news).Nodup →
      (∀ f ∈ news, f.1 ∉ akeys inter) →
      (akeys iter).Nodup →
      (∀ k ∈ akeys iter, k ∉ akeys news) →
      (∀ pk ∈ forked, pk ∈ akeys inter) →
      (pass1 inter iter chunks news forked = none ∧
        spec_pass1 sp iter spn = none) ∨
      (∃ chunksF newsF forkedF spnF,
        pass1 inter iter chunks news forked = some (chunksF, newsF, forkedF) ∧
        spec_pass1 sp iter spn = some spnF ∧
        chunks.length ≤ chunksF.length ∧
        L0 ≤ chunksF.length ∧
        Matches chunksF inter sp ∧
        Matches chunksF newsF spnF ∧
        (∀ f ∈ newsF, f.2.output_chunks_indexes ≠ [] ∧
          (∀ i ∈ f.2.output_chunks_indexes.dropLast, i < L0) ∧
          L0 ≤ lastIdx f.2 ∧ lastIdx f.2 < chunksF.length) ∧
        (∀ f ∈ newsF, f.2.output_chunks_indexes.dropLast = [] ∨
          ∃ p ∈ inter, p.1 ∈ forkedF ∧
            f.2.output_chunks_indexes.dropLast = p.2.output_chunks_indexes) ∧
        (∀ f ∈ newsF, ∀ g ∈ newsF, f.1 ≠ g.1 → lastIdx f.2 ≠ lastIdx g.2) ∧
        (akeys newsF).Nodup ∧
        (∀ f ∈ newsF, f.1 ∉ akeys inter) ∧
        (∀ pk ∈ forkedF, pk ∈ akeys inter) ∧
        (∀ pk ∈ forked, pk ∈ forkedF) ∧
        akeys newsF = akeys news ++
          (iter.filter (fun e => !(acontains inter e.1))).map Prod.fst)
  | [], chunks, news, forked, spn, hL0, hm, hmn, hsh, hlink, hpl, hnknews,
      hfreshnews, hnd, hdisj, hforked => by
    rw [pass1, spec_pass1]
    exact Or.inr ⟨chunks, news, forked, spn, rfl, rfl, le_refl _, hL0, hm, hmn,
      hsh, hlink, hpl, hnknews, hfreshnews, hforked, fun pk hpk => hpk,
      by simp⟩
  | (id, out) :: rest, chunks, news, forked, spn, hL0, hm, hmn, hsh, hlink,
      hpl, hnknews, hfreshnews, hnd, hdisj, hforked => by
    have hndrest : (akeys rest).Nodup := by
      rw [akeys, List.map_cons, List.nodup_cons] at hnd
      exact hnd.2
    have hidrest : id ∉ akeys rest := by
      rw [akeys, List.map_cons, List.nodup_cons] at hnd
      exact hnd.1
    rw [pass1, spec_pass1]
    cases hc : acontains inter id with
    | true =>
      have hcs : acontains sp id = true := by
        rw [← matches_acontains chunks inter sp hm]
        exact hc
      rw [hcs]
      simp only [if_true]
      have hdisj1 : ∀ k ∈ akeys rest, k ∉ akeys news := fun k hk =>
        hdisj k (by rw [akeys, List.map_cons]; exact List.mem_cons_of_mem _ hk)
      have hrec := pass1_sim inter sp L0 hbi rest chunks news forked spn
        hL0 hm hmn hsh hlink hpl hnknews hfreshnews hndrest hdisj1 hforked
      rcases hrec with ⟨h1, h2⟩ | ⟨cF, nF, fF, sF, h1, h2, hrest⟩
      · exact Or.inl ⟨h1, h2⟩
      · refine Or.inr ⟨cF, nF, fF, sF, h1, h2, hrest.1, hrest.2.1, hrest.2.2.1,
          hrest.2.2.2.1, hrest.2.2.2.2.1, hrest.2.2.2.2.2.1,
          hrest.2.2.2.2.2.2.1, hrest.2.2.2.2.2.2.2.1,
          hrest.2.2.2.2.2.2.2.2.1, hrest.2.2.2.2.2.2.2.2.2.1,
          hrest.2.2.2.2.2.2.2.2.2.2.1, ?_⟩
        rw [hrest.2.2.2.2.2.2.2.2.2.2.2, List.filter_cons]
        simp [hc]
    | false =>
      have hcs : acontains sp id = false := by
        rw [← matches_acontains chunks inter sp hm]
        exact hc
      have hidinter : id ∉ akeys inter := (acontains_false_iff _ _).mp hc
      have hidnews : id ∉ akeys news :=
        hdisj id (by rw [akeys, List.map_cons]; exact List.mem_cons_self _ _)
      have hcn : acontains news id = false := (acontains_false_iff _ _).mpr hidnews
      have hcsn : acontains spn id = false := by
        rw [← matches_acontains chunks news spn hmn]
        exact hcn
      rw [hcs]
      simp only [Bool.false_eq_true, if_false]
      by_cases hp : out.parent_id ≠ 0
      · rw [if_pos hp, if_pos hp]
        rcases hlp : alookup inter out.parent_id with _ | pr
        · have hlps : alookup sp out.parent_id = none :=
            (matches_alookup_none chunks inter sp hm out.parent_id).mp hlp
          left
          constructor
          · simp [hlp]
          · simp [hlps]
        · rcases matches_alookup_some chunks inter sp hm out.parent_id pr hlp
            with ⟨se, hlps, htok, hlpeq⟩
          simp only [hlp, hlps, add_output_chunk, hcn, hcsn, Bool.false_eq_true,
            if_false]
          have hmono : ∀ pk ∈ forked, pk ∈ forked ++ [out.parent_id] :=
            fun pk hpk => List.mem_append.mpr (Or.inl hpk)
          have hlink2 : ∀ f ∈ news, f.2.output_chunks_indexes.dropLast = [] ∨
              ∃ p ∈ inter, p.1 ∈ forked ++ [out.parent_id] ∧
                f.2.output_chunks_indexes.dropLast = p.2.output_chunks_indexes := by
            intro f hf
            rcases hlink f hf with h | ⟨p, hpmem, hpf, hpeq⟩
            · exact Or.inl h
            · exact Or.inr ⟨p, hpmem, hmono p.1 hpf, hpeq⟩
          have hstep := pass1_step inter sp L0 chunks news spn
            (forked ++ [out.parent_id]) id out.token_id out.cumulative_log_prob
            pr.output_chunks_indexes se.tokens hbi hL0 hm hmn hsh hlink2 hpl
            hnknews hfreshnews hidnews hidinter
            (fun i hi =>
              (hbi (out.parent_id, pr) (mem_of_alookup _ _ _ hlp)).2 i hi)
            htok
            (Or.inr ⟨(out.parent_id, pr), mem_of_alookup _ _ _ hlp,
              List.mem_append.mpr (Or.inr (List.mem_singleton.mpr rfl)), rfl⟩)
          have hforked1 : ∀ pk ∈ forked ++ [out.parent_id], pk ∈ akeys inter := by
            intro pk hpk
            rcases List.mem_append.mp hpk with hpk | hpk
            · exact hforked pk hpk
            · rcases List.mem_singleton.mp hpk with rfl
              exact List.mem_map.mpr ⟨(out.parent_id, pr),
                mem_of_alookup _ _ _ hlp, rfl⟩
          have hdisj1 : ∀ k ∈ akeys rest, k ∉ akeys (news ++
              [(id, (⟨pr.output_chunks_indexes ++ [chunks.length],
                out.cumulative_log_prob⟩ : IntermediateResult))]) := by
            intro k hk hmem
            rw [akeys_append] at hmem
            rcases List.mem_append.mp hmem with hmem | hmem
            · have hkfull : k ∈ akeys ((id, out) :: rest) := by
                rw [akeys, List.map_cons]
                exact List.mem_cons_of_mem _ hk
              exact hdisj k hkfull hmem
            · have : k = id := by simpa [akeys] using hmem
              exact hidrest (this ▸ hk)
          have hrec := pass1_sim inter sp L0 hbi rest (chunks ++ [[out.token_id]])
            (news ++ [(id, ⟨pr.output_chunks_indexes ++ [chunks.length],
              out.cumulative_log_prob⟩)])
            (forked ++ [out.parent_id])
            (spn ++ [(id, ⟨se.tokens ++ [out.token_id], out.cumulative_log_prob⟩)])
            hstep.1 hstep.2.1 hstep.2.2.1 hstep.2.2.2.1 hstep.2.2.2.2.1
            hstep.2.2.2.2.2.1 hstep.2.2.2.2.2.2.1 hstep.2.2.2.2.2.2.2
            hndrest hdisj1 hforked1
          rcases hrec with ⟨h1, h2⟩ | ⟨cF, nF, fF, sF, h1, h2, hrest⟩
          · exact Or.inl ⟨h1, h2⟩
          · have hlenF : chunks.length ≤ cF.length := by
              have h3 := hrest.1
              rw [List.length_append] at h3
              simp at h3
              omega
            refine Or.inr ⟨cF, nF, fF, sF, h1, h2, hlenF,
              hrest.2.1, hrest.2.2.1, hrest.2.2.2.1, hrest.2.2.2.2.1,
              hrest.2.2.2.2.2.1, hrest.2.2.2.2.2.2.1,
              hrest.2.2.2.2.2.2.2.1, hrest.2.2.2.2.2.2.2.2.1,
              hrest.2.2.2.2.2.2.2.2.2.1,
              fun pk hpk => hrest.2.2.2.2.2.2.2.2.2.2.1 pk (hmono pk hpk), ?_⟩
            rw [hrest.2.2.2.2.2.2.2.2.2.2.2, List.filter_cons]
            simp only [hc, Bool.not_false, if_true, List.map_cons, akeys_append]
            simp [akeys]
      · rw [if_neg hp, if_neg hp]
        simp only [add_output_chunk, hcn, hcsn, Bool.false_eq_true, if_false,
          List.nil_append]
        have hstep := pass1_step inter sp L0 chunks news spn forked id
          out.token_id out.cumulative_log_prob [] [] hbi hL0 hm hmn hsh hlink hpl
          hnknews hfreshnews hidnews hidinter (by simp) rfl (Or.inl rfl)
        simp only [List.nil_append] at hstep
        have hdisj1 : ∀ k ∈ akeys rest, k ∉ akeys (news ++
            [(id, (⟨[chunks.length], out.cumulative_log_prob⟩ :
              IntermediateResult))]) := by
          intro k hk hmem
          rw [akeys_append] at hmem
          rcases List.mem_append.mp hmem with hmem | hmem
          · have hkfull : k ∈ akeys ((id, out) :: rest) := by
              rw [akeys, List.map_cons]
              exact List.mem_cons_of_mem _ hk
            exact hdisj k hkfull hmem
          · have : k = id := by simpa [akeys] using hmem
            exact hidrest (this ▸ hk)
        have hrec := pass1_sim inter sp L0 hbi rest (chunks ++ [[out.token_id]])
          (news ++ [(id, ⟨[chunks.length], out.cumulative_log_prob⟩)]) forked
          (spn ++ [(id, ⟨[out.token_id], out.cumulative_log_prob⟩)])
          hstep.1 hstep.2.1 hstep.2.2.1 hstep.2.2.2.1 hstep.2.2.2.2.1
          hstep.2.2.2.2.2.1 hstep.2.2.2.2.2.2.1 hstep.2.2.2.2.2.2.2
          hndrest hdisj1 hforked
        rcases hrec with ⟨h1, h2⟩ | ⟨cF, nF, fF, sF, h1, h2, hrest⟩
        · exact Or.inl ⟨h1, h2⟩
        · have hlenF : chunks.length ≤ cF.length := by
            have h3 := hrest.1
            rw [List.length_append] at h3
            simp at h3
            omega
          refine Or.inr ⟨cF, nF, fF, sF, h1, h2, hlenF,
            hrest.2.1, hrest.2.2.1, hrest.2.2.2.1, hrest.2.2.2.2.1,
            hrest.2.2.2.2.2.1, hrest.2.2.2.2.2.2.1,
            hrest.2.2.2.2.2.2.2.1, hrest.2.2.2.2.2.2.2.2.1,
            hrest.2.2.2.2.2.2.2.2.2.1,
            hrest.2.2.2.2.2.2.2.2.2.2.1, ?_⟩
          rw [hrest.2.2.2.2.2.2.2.2.2.2.2, List.filter_cons]
          simp only [hc, Bool.not_false, if_true, List.map_cons, akeys_append]
          simp [akeys]

/-- boolean list membership, for the forked set. -/
theorem contains_true_iff (l : List ℕ) (a : ℕ) : l.contains a = true ↔ a ∈ l := by
  simp [List.contains]

/-- boolean list non-membership, for the forked set. -/
theorem contains_false_iff (l : List ℕ) (a : ℕ) :
    l.contains a = false ↔ a ∉ l := by
  simp [List.contains]

/-- simulation through the second pass of a non-initial iteration: every
tracked sequence appearing in the iteration appends its token — through a
fresh chunk when it was forked, in place into its unshared last chunk
otherwise — matching the specification model's plain token append.  The
pass always succeeds under the invariants. -/
theorem pass2_sim (inter₀ : List (ℕ × IntermediateResult)) (L0 L1 : ℕ)
    (forked : List ℕ)
    (hfr0 : Frozen inter₀)
    (hb0 : ∀ e ∈ inter₀, e.2.output_chunks_indexes ≠ [] ∧
      ∀ i ∈ e.2.output_chunks_indexes, i < L0)
    (hnk0 : (akeys inter₀).Nodup)
    (hL01 : L0 ≤ L1) :
    ∀ (iter : Iteration) (chunks : List (List ℤ))
      (inter : List (ℕ × IntermediateResult)) (sp : List (ℕ × SpecEntry))
      (news : List (ℕ × IntermediateResult)) (spn : List (ℕ × SpecEntry)),
      L1 ≤ chunks.length →
      Matches chunks inter sp →
      BoundOk chunks inter →
      Frozen inter →
      akeys inter = akeys inter₀ →
      (akeys iter).Nodup →
      (∀ e ∈ inter, lastIdx e.2 < L0 ∨ L1 ≤ lastIdx e.2) →
      (∀ e ∈ inter, ∃ ir0, (e.1, ir0) ∈ inter₀ ∧
        (e.2 = ir0 ∨ (e.1 ∉ akeys iter ∧ L1 ≤ lastIdx e.2 ∧
          e.2.output_chunks_indexes = ir0.output_chunks_indexes ++ [lastIdx e.2]))) →
      Matches chunks news spn →
      (∀ f ∈ news, f.2.output_chunks_indexes ≠ [] ∧
        (∀ i ∈ f.2.output_chunks_indexes.dropLast, i < L0) ∧
        L0 ≤ lastIdx f.2 ∧ lastIdx f.2 < L1) →
      (∀ f ∈ news, f.2.output_chunks_indexes.dropLast = [] ∨
        ∃ p ∈ inter₀, p.1 ∈ forked ∧
          f.2.output_chunks_indexes.dropLast = p.2.output_chunks_indexes) →
      ∃ chunks₂ inter₂,
        pass2 forked iter chunks inter = some (chunks₂, inter₂) ∧
        chunks.length ≤ chunks₂.length ∧
        Matches chunks₂ inter₂ (spec_pass2 iter sp) ∧
        BoundOk chunks₂ inter₂ ∧
        Frozen inter₂ ∧
        akeys inter₂ = akeys inter ∧
        (∀ e ∈ inter₂, lastIdx e.2 < L0 ∨ L1 ≤ lastIdx e.2) ∧
        (∀ e ∈ inter₂, ∃ ir0, (e.1, ir0) ∈ inter₀ ∧
          (e.2 = ir0 ∨ (L1 ≤ lastIdx e.2 ∧
            e.2.output_chunks_indexes = ir0.output_chunks_indexes ++ [lastIdx e.2]))) ∧
        (∀ e ∈ inter₂, e.1 ∈ akeys iter → e.1 ∈ forked → L1 ≤ lastIdx e.2) ∧
        Matches chunks₂ news spn
  | [], chunks, inter, sp, news, spn, hL1, hm, hb, hfr, hkeys, _, hilo, hevo,
      hmn, hnb, hshape => by
    rw [pass2, spec_pass2]
    refine ⟨chunks, inter, rfl, le_refl _, hm, hb, hfr, rfl, hilo, ?_, ?_, hmn⟩
    · intro e he
      rcases hevo e he with ⟨ir0, h1, h2 | h2⟩
      · exact ⟨ir0, h1, Or.inl h2⟩
      · exact ⟨ir0, h1, Or.inr ⟨h2.2.1, h2.2.2⟩⟩
    · intro e _ he2
      simp [akeys] at he2
  | (id, out) :: rest, chunks, inter, sp, news, spn, hL1, hm, hb, hfr, hkeys,
      hnd, hilo, hevo, hmn, hnb, hshape => by
    have hndrest : (akeys rest).Nodup := by
      rw [akeys, List.map_cons, List.nodup_cons] at hnd
      exact hnd.2
    have hidrest : id ∉ akeys rest := by
      rw [akeys, List.map_cons, List.nodup_cons] at hnd
      exact hnd.1
    have hnkinter : (akeys inter).Nodup := hkeys ▸ hnk0
    rw [pass2, spec_pass2]
    rcases hl : alookup inter id with _ | ir
    · have hls : alookup sp id = none :=
        (matches_alookup_none chunks inter sp hm id).mp hl
      simp only [hl, hls]
      have hevo1 : ∀ e ∈ inter, ∃ ir0, (e.1, ir0) ∈ inter₀ ∧
          (e.2 = ir0 ∨ (e.1 ∉ akeys rest ∧ L1 ≤ lastIdx e.2 ∧
            e.2.output_chunks_indexes
              = ir0.output_chunks_indexes ++ [lastIdx e.2])) := by
        intro e he
        rcases hevo e he with ⟨ir0, h1, h2 | h2⟩
        · exact ⟨ir0, h1, Or.inl h2⟩
        · refine ⟨ir0, h1, Or.inr ⟨?_, h2.2.1, h2.2.2⟩⟩
          intro hmem
          exact h2.1 (by rw [akeys, List.map_cons]
                         exact List.mem_cons_of_mem _ hmem)
      have hrec := pass2_sim inter₀ L0 L1 forked hfr0 hb0 hnk0 hL01 rest chunks
        inter sp news spn hL1 hm hb hfr hkeys hndrest hilo hevo1 hmn hnb hshape
      rcases hrec with ⟨c2, i2, h1, h2, h3, h4, h5, h6, h7, h8, h9, h10⟩
      refine ⟨c2, i2, h1, h2, h3, h4, h5, h6, h7, h8, ?_, h10⟩
      intro e he hiter hfk
      rcases (by rw [akeys, List.map_cons, List.mem_cons] at hiter; exact hiter :
          e.1 = id ∨ e.1 ∈ akeys rest) with hiter | hiter
      · have : e.1 ∈ akeys i2 := List.mem_map.mpr ⟨e, he, rfl⟩
        rw [h6] at this
        rw [hiter] at this
        exact absurd this ((alookup_none_iff inter id).mp hl)
      · exact h9 e he hiter hfk
    · rcases matches_alookup_some chunks inter sp hm id ir hl
        with ⟨se, hls, htok, hlpeq⟩
      have hmem : (id, ir) ∈ inter := mem_of_alookup inter id ir hl
      have hirne : ir.output_chunks_indexes ≠ [] := (hb (id, ir) hmem).1
      have hirbound : ∀ i ∈ ir.output_chunks_indexes, i < chunks.length :=
        (hb (id, ir) hmem).2
      have hevoid : ∃ ir0, (id, ir0) ∈ inter₀ ∧ ir = ir0 := by
        rcases hevo (id, ir) hmem with ⟨ir0, h1, h2 | h2⟩
        · exact ⟨ir0, h1, h2⟩
        · exact absurd (by rw [akeys, List.map_cons]
                           exact List.mem_cons_self _ _) h2.1
      simp only [hl, hls]
      cases hfk : forked.contains id with
      | true =>
        simp only [add_output_chunk, if_true]
        set tok := out.token_id with htokdef
        set v : IntermediateResult :=
          ⟨ir.output_chunks_indexes ++ [chunks.length], ir.cumulative_log_prob⟩
          with hv
        set w : SpecEntry := ⟨se.tokens ++ [tok], se.log_prob⟩ with hw
        have hvlast : lastIdx v = chunks.length := lastIdx_concat _ _ _
        have hm1 : Matches (chunks ++ [[tok]]) (aset inter id v) (aset sp id w) := by
          apply matches_aset_both chunks _ id v w inter sp hm
          · intro e he hne
            exact chunk_tokens_extend chunks [[tok]] e.2 (hb e he).2
          · rw [hv, hw]
            have := chunk_tokens_new_chunk chunks ir.output_chunks_indexes tok
              ir.cumulative_log_prob hirbound
            rw [this]
            have h0 : chunk_tokens chunks
                (⟨ir.output_chunks_indexes, ir.cumulative_log_prob⟩ :
                  IntermediateResult) = chunk_tokens chunks ir := rfl
            rw [h0, htok]
          · rw [hv, hw]
            exact hlpeq
        have hb1 : BoundOk (chunks ++ [[tok]]) (aset inter id v) := by
          intro e he
          have hlen1 : (chunks ++ [[tok]]).length = chunks.length + 1 := by
            rw [List.length_append, List.length_cons, List.length_nil]
          rcases mem_aset inter id v e he with ⟨rfl, _⟩ | ⟨he2, hne⟩
          · refine ⟨by rw [hv]; simp, ?_⟩
            intro i hi
            rw [hv] at hi
            rcases List.mem_append.mp hi with hi | hi
            · have := hirbound i hi
              omega
            · rw [List.mem_singleton.mp hi]
              omega
          · rcases hb e he2 with ⟨h1, h2⟩
            exact ⟨h1, fun i hi => by have := h2 i hi; omega⟩
        have hfr1 : Frozen (aset inter id v) := by
          constructor
          · intro e he f hfm
            rcases mem_aset inter id v e he with ⟨rfl, _⟩ | ⟨he2, hene⟩
            · rcases mem_aset inter id v f hfm with ⟨rfl, _⟩ | ⟨hf2, hfne⟩
              · simp only [hvlast, hv, List.dropLast_concat]
                intro hmem2
                exact absurd (hirbound _ hmem2) (by omega)
              · simp only [hvlast]
                intro hmem2
                have hsub : f.2.output_chunks_indexes.dropLast.Sublist
                    f.2.output_chunks_indexes := List.dropLast_sublist _
                exact absurd ((hb f hf2).2 _ (hsub.subset hmem2)) (by omega)
            · rcases mem_aset inter id v f hfm with ⟨rfl, _⟩ | ⟨hf2, hfne⟩
              · simp only [hv, List.dropLast_concat]
                exact frozen_last_not_mem inter hfr e (id, ir) he2 hmem hene hirne
              · exact hfr.1 e he2 f hf2
          · intro e he f hfm hne
            rcases mem_aset inter id v e he with ⟨rfl, _⟩ | ⟨he2, hene⟩
            · rcases mem_aset inter id v f hfm with ⟨rfl, _⟩ | ⟨hf2, hfne⟩
              · exact absurd rfl hne
              · rw [hvlast]
                have := boundok_last chunks inter hb f hf2
                omega
            · rcases mem_aset inter id v f hfm with ⟨rfl, _⟩ | ⟨hf2, hfne⟩
              · rw [hvlast]
                have := boundok_last chunks inter hb e he2
                omega
              · exact hfr.2 e he2 f hf2 hne
        have hkeys1 : akeys (aset inter id v) = akeys inter₀ := by
          rw [akeys_aset]
          exact hkeys
        have hilo1 : ∀ e ∈ aset inter id v, lastIdx e.2 < L0 ∨ L1 ≤ lastIdx e.2 := by
          intro e he
          rcases mem_aset inter id v e he with ⟨rfl, _⟩ | ⟨he2, _⟩
          · rw [hvlast]
            exact Or.inr (by omega)
          · exact hilo e he2
        have hevo1 : ∀ e ∈ aset inter id v, ∃ ir0, (e.1, ir0) ∈ inter₀ ∧
            (e.2 = ir0 ∨ (e.1 ∉ akeys rest ∧ L1 ≤ lastIdx e.2 ∧
              e.2.output_chunks_indexes
                = ir0.output_chunks_indexes ++ [lastIdx e.2])) := by
          intro e he
          rcases mem_aset inter id v e he with ⟨rfl, _⟩ | ⟨he2, hene⟩
          · rcases hevoid with ⟨ir0, h1, h2⟩
            refine ⟨ir0, h1, Or.inr ⟨hidrest, by rw [hvlast]; omega, ?_⟩⟩
            rw [hvlast, hv, ← h2]
          · rcases hevo e he2 with ⟨ir0, h1, h2 | h2⟩
            · exact ⟨ir0, h1, Or.inl h2⟩
            · refine ⟨ir0, h1, Or.inr ⟨?_, h2.2.1, h2.2.2⟩⟩
              intro hmem2
              exact h2.1 (by rw [akeys, List.map_cons]
                             exact List.mem_cons_of_mem _ hmem2)
        have hmn1 : Matches (chunks ++ [[tok]]) news spn :=
          matches_mono chunks _ news spn hmn (fun f hf =>
            chunk_tokens_extend chunks [[tok]] f.2 (fun i hi => by
              rcases mem_dropLast_or_last _ (hnb f hf).1 i hi with hi2 | hi2
              · have := (hnb f hf).2.1 i hi2
                omega
              · rw [hi2]
                have h3 := (hnb f hf).2.2.2
                rw [lastIdx] at h3
                omega))
        have hrec := pass2_sim inter₀ L0 L1 forked hfr0 hb0 hnk0 hL01 rest
          (chunks ++ [[tok]]) (aset inter id v) (aset sp id w) news spn
          (by rw [List.length_append]; simp; omega) hm1 hb1 hfr1 hkeys1
          hndrest hilo1 hevo1 hmn1 hnb hshape
        rcases hrec with ⟨c2, i2, h1, h2, h3, h4, h5, h6, h7, h8, h9, h10⟩
        refine ⟨c2, i2, h1, by rw [List.length_append] at h2; simp at h2; omega,
          h3, h4, h5, by rw [h6, akeys_aset], h7, h8, ?_, h10⟩
        intro e he hiter hfk2
        rcases (by rw [akeys, List.map_cons, List.mem_cons] at hiter; exact hiter :
            e.1 = id ∨ e.1 ∈ akeys rest) with hiter | hiter
        · have hpres := pass2_alookup_preserve forked rest (chunks ++ [[tok]])
            (aset inter id v) c2 i2 h1 id hidrest
          have hlk : alookup (aset inter id v) id = some v := by
            rw [alookup_aset_self, hl]
            rfl
          have hnk2 : (akeys i2).Nodup := by
            rw [h6, akeys_aset, hkeys]
            exact hnk0
          have he2 : alookup i2 e.1 = some e.2 := alookup_of_mem_nodup i2 e.1 e.2
            hnk2 (by rw [Prod.mk.eta]; exact he)
          rw [hiter] at he2
          rw [hpres, hlk] at he2
          have hve : v = e.2 := by injection he2
          rw [← hve, hvlast]
          omega
        · exact h9 e he hiter hfk2
      | false =>
        rcases hq : ir.output_chunks_indexes.getLast? with _ | q
        · exact absurd (List.getLast?_eq_none_iff.mp hq) hirne
        · simp only [if_false]
          have hqlast : ir.output_chunks_indexes.getLastD 0 = q := by
            rw [List.getLastD_eq_getLast? _ _, hq]
            rfl
          have hqlt : q < chunks.length := by
            rw [← hqlast]
            exact boundok_last chunks inter hb (id, ir) hmem
          have hidnotforked : id ∉ forked := (contains_false_iff _ _).mp hfk
          set tok := out.token_id with htokdef
          set w : SpecEntry := ⟨se.tokens ++ [tok], se.log_prob⟩ with hw
          have hqnotshared : ∀ e ∈ inter, e.1 ≠ id →
              q ∉ e.2.output_chunks_indexes := by
            intro e he hne
            rw [← hqlast]
            exact frozen_last_not_mem inter hfr (id, ir) e hmem he
              (fun hh => hne hh.symm) (hb e he).1
          have hm1 : Matches (append_at chunks q tok) inter (aset sp id w) := by
            apply matches_aset_spec chunks _ id w inter sp hm
            · intro e he hne
              rw [append_at]
              exact chunk_tokens_set_not_mem chunks q _ e.2 (hqnotshared e he hne)
            · intro e he heq
              have hee : e.2 = ir := by
                have h1 : alookup inter e.1 = some e.2 := alookup_of_mem_nodup
                  inter e.1 e.2 hnkinter (by rw [Prod.mk.eta]; exact he)
                rw [heq, hl] at h1
                injection h1.symm
              rw [hee, hw]
              have hqnd : q ∉ ir.output_chunks_indexes.dropLast := by
                rw [← hqlast]
                exact hfr.1 (id, ir) hmem (id, ir) hmem
              constructor
              · rw [chunk_tokens_append_at_last chunks ir q tok hirne hqlast
                  hqnd hqlt, htok]
              · exact hlpeq
          have hlen1 : (append_at chunks q tok).length = chunks.length := by
            rw [append_at, List.length_set]
          have hb1 : BoundOk (append_at chunks q tok) inter := by
            intro e he
            rcases hb e he with ⟨hb2, hb3⟩
            exact ⟨hb2, fun i hi => by rw [hlen1]; exact hb3 i hi⟩
          have hmn1 : Matches (append_at chunks q tok) news spn := by
            apply matches_mono chunks _ news spn hmn
            intro f hf
            rw [append_at]
            apply chunk_tokens_set_not_mem
            intro hqin
            rcases mem_dropLast_or_last _ (hnb f hf).1 q hqin with hq2 | hq2
            · rcases hilo (id, ir) hmem with hlo | hlo
              · rcases hshape f hf with hsh0 | ⟨p, hpmem, hpf, hpeq⟩
                · rw [hsh0] at hq2
                  simp at hq2
                · rw [hpeq] at hq2
                  rcases hevoid with ⟨ir0, hir0mem, hireq⟩
                  have hpne : id ≠ p.1 := fun hh => hidnotforked (hh ▸ hpf)
                  have hnotmem : lastIdx (id, ir0).2 ∉ p.2.output_chunks_indexes :=
                    frozen_last_not_mem inter₀ hfr0 (id, ir0) p hir0mem hpmem
                      hpne (hb0 p hpmem).1
                  refine hnotmem ?_
                  have hlir0 : lastIdx ir0 = q := by
                    rw [← hireq, lastIdx, hqlast]
                  rw [show lastIdx (id, ir0).2 = lastIdx ir0 from rfl, hlir0]
                  exact hq2
              · have hql : q < L0 := (hnb f hf).2.1 q hq2
                rw [lastIdx, hqlast] at hlo
                omega
            · rcases hilo (id, ir) hmem with hlo | hlo
              · rw [lastIdx, hqlast] at hlo
                have h4 := (hnb f hf).2.2.1
                rw [lastIdx] at h4
                omega
              · rw [lastIdx, hqlast] at hlo
                have h5 := (hnb f hf).2.2.2
                rw [lastIdx] at h5
                omega
          have hevo1 : ∀ e ∈ inter, ∃ ir0, (e.1, ir0) ∈ inter₀ ∧
              (e.2 = ir0 ∨ (e.1 ∉ akeys rest ∧ L1 ≤ lastIdx e.2 ∧
                e.2.output_chunks_indexes
                  = ir0.output_chunks_indexes ++ [lastIdx e.2])) := by
            intro e he
            rcases hevo e he with ⟨ir0, hev1, hev2 | hev2⟩
            · exact ⟨ir0, hev1, Or.inl hev2⟩
            · refine ⟨ir0, hev1, Or.inr ⟨?_, hev2.2.1, hev2.2.2⟩⟩
              intro hmem2
              exact hev2.1 (by rw [akeys, List.map_cons]
                               exact List.mem_cons_of_mem _ hmem2)
          have hrec := pass2_sim inter₀ L0 L1 forked hfr0 hb0 hnk0 hL01 rest
            (append_at chunks q tok) inter (aset sp id w) news spn
            (by rw [hlen1]; exact hL1) hm1 hb1 hfr hkeys hndrest hilo hevo1
            hmn1 hnb hshape
          rcases hrec with ⟨c2, i2, h1, h2, h3, h4, h5, h6, h7, h8, h9, h10⟩
          refine ⟨c2, i2, h1, by rw [hlen1] at h2; exact h2, h3, h4, h5, h6,
            h7, h8, ?_, h10⟩
          intro e he hiter hfk2
          rcases (by rw [akeys, List.map_cons, List.mem_cons] at hiter
                     exact hiter : e.1 = id ∨ e.1 ∈ akeys rest) with hiter | hiter
          · rw [hiter] at hfk2
            exact absurd hfk2 hidnotforked
          · exact h9 e he hiter hfk2

/-- key membership through the drop filter. -/
theorem akeys_drop_iff {α : Type} (m : List (ℕ × α)) (last_ids iter_ids : List ℕ)
    (k : ℕ) :
    k ∈ akeys (drop_discontinued m last_ids iter_ids) ↔
      k ∈ akeys m ∧ ¬ (k ∈ last_ids ∧ k ∉ iter_ids) := by
  have hbool : ∀ a : ℕ, (!(last_ids.contains a && !(iter_ids.contains a))) = true
      ↔ ¬ (a ∈ last_ids ∧ a ∉ iter_ids) := by
    intro a
    simp [List.contains]
    tauto
  simp only [drop_discontinued, akeys, List.mem_map, List.mem_filter]
  constructor
  · rintro ⟨e, ⟨hem, hp⟩, rfl⟩
    exact ⟨⟨e, hem, rfl⟩, (hbool e.1).mp hp⟩
  · rintro ⟨⟨e, hem, rfl⟩, hcond⟩
    exact ⟨e, ⟨hem, (hbool e.1).mpr hcond⟩, rfl⟩

/-- simulation of one full iteration of the read_all loop. -/
theorem process_iteration_sim (st : ReadAllState) (sp : SpecState)
    (iter : Iteration) (hinv : StateInv st) (hsim : Sim st sp)
    (hnd : (akeys iter).Nodup) :
    (process_iteration st iter = none ∧ spec_process_iteration sp iter = none) ∨
    (∃ st1 sp1, process_iteration st iter = some st1 ∧
      spec_process_iteration sp iter = some sp1 ∧ StateInv st1 ∧ Sim st1 sp1) := by
  rcases st with ⟨chunks, inter, last_ids⟩
  rcases sp with ⟨entries, slast⟩
  rcases hinv with ⟨hb, hfr, hnk, hkl⟩
  rcases hsim with ⟨hm, hlast⟩
  simp only at hb hfr hnk hkl hm hlast
  subst hlast
  rw [process_iteration, spec_process_iteration]
  simp only
  by_cases hemp : last_ids.isEmpty
  · have hlnil : last_ids = [] := List.isEmpty_iff.mp hemp
    subst hlnil
    have hinil : inter = [] := by
      have : akeys inter = [] := by
        rcases hin : akeys inter with _ | ⟨a, rest⟩
        · rfl
        · have : a ∈ akeys inter := by rw [hin]; exact List.mem_cons_self _ _
          have := (hkl a).mp this
          simp at this
      rw [akeys] at this
      exact List.map_eq_nil_iff.mp this
    subst hinil
    have hsnil : entries = [] := by
      cases hm
      rfl
    subst hsnil
    rw [if_pos hemp, if_pos hemp]
    have hfp := first_pass_sim iter chunks [] [] List.Forall₂.nil
      (fun e he => absurd he (List.not_mem_nil e))
      ⟨fun e he => absurd he (List.not_mem_nil e),
       fun e he => absurd he (List.not_mem_nil e)⟩
      (by simp [akeys]) hnd
      (fun k _ hmem => by simp [akeys] at hmem)
    refine Or.inr ⟨⟨(first_pass iter chunks []).1, (first_pass iter chunks []).2,
      akeys iter⟩, ⟨spec_first_pass iter [], akeys iter⟩, rfl, rfl,
      ⟨hfp.2.1, hfp.2.2.1, ?_, ?_⟩, ⟨hfp.1, rfl⟩⟩
    · rw [hfp.2.2.2]
      simpa [akeys] using hnd
    · intro k
      rw [hfp.2.2.2]
      simp [akeys]
  · rw [if_neg hemp, if_neg hemp]
    have hp1 := pass1_sim inter entries chunks.length hb iter chunks [] [] []
      (le_refl _) hm List.Forall₂.nil
      (fun f hf => absurd hf (List.not_mem_nil f))
      (fun f hf => absurd hf (List.not_mem_nil f))
      (fun f hf => absurd hf (List.not_mem_nil f))
      (by simp [akeys])
      (fun f hf => absurd hf (List.not_mem_nil f))
      hnd
      (fun k _ hmem => by simp [akeys] at hmem)
      (fun pk hpk => absurd hpk (List.not_mem_nil pk))
    rcases hp1 with ⟨h1, h2⟩ | ⟨cF, nF, fF, sF, h1, h2, hlen1, hlen0, hmF, hmnF,
      hshF, hlinkF, hplF, hnkF, hfreshF, hforkF, _, hkeysF⟩
    · simp only [h1, h2]
      exact Or.inl ⟨by trivial, by trivial⟩
    · simp only [h1, h2]
      have hp2 := pass2_sim inter chunks.length cF.length fF hfr hb hnk hlen1
        iter cF inter entries nF sF (le_refl _) hmF
        (fun e he => ⟨(hb e he).1,
          fun i hi => lt_of_lt_of_le ((hb e he).2 i hi) hlen1⟩)
        hfr rfl hnd
        (fun e he => Or.inl (boundok_last chunks inter hb e he))
        (fun e he => ⟨e.2, by rw [Prod.mk.eta]; exact he, Or.inl rfl⟩)
        hmnF hshF hlinkF
      rcases hp2 with ⟨c2, i2, hp2eq, hlen2, hm2, hb2, hfr2, hkeys2, hilo2,
        hevo2, hpf2, hmn2⟩
      simp only [hp2eq]
      set A := drop_discontinued i2 last_ids (akeys iter) with hA
      set As := drop_discontinued (spec_pass2 iter entries) last_ids (akeys iter)
        with hAs
      have hmA : Matches c2 A As :=
        matches_drop c2 last_ids (akeys iter) i2 (spec_pass2 iter entries) hm2
      have hsubA : A.Sublist i2 := List.filter_sublist _
      have hAkeys_sub : ∀ k ∈ akeys A, k ∈ akeys inter := by
        intro k hk
        have : k ∈ akeys i2 := (hsubA.map Prod.fst).subset hk
        rw [hkeys2] at this
        exact this
      have hAfresh : ∀ f ∈ nF, f.1 ∉ akeys A :=
        fun f hf hmem => hfreshF f hf (hAkeys_sub f.1 hmem)
      have hi2nodup : (akeys i2).Nodup := by
        rw [hkeys2]
        exact hnk
      have hAnodup : (akeys A).Nodup := hi2nodup.sublist (hsubA.map Prod.fst)
      have hins : insert_new A nF = A ++ nF := insert_new_append nF A hAfresh hnkF
      have hsFkeys : akeys sF = akeys nF :=
        (matches_keys c2 nF sF hmn2).symm
      have hAskeys : akeys As = akeys A := (matches_keys c2 A As hmA).symm
      have hinsS : insert_new As sF = As ++ sF := by
        apply insert_new_append
        · intro f hf hmem
          have hkey : f.1 ∈ akeys sF := List.mem_map.mpr ⟨f, hf, rfl⟩
          rw [hsFkeys] at hkey
          rw [hAskeys] at hmem
          exact hAfresh (f.1, (⟨[], 0⟩ : IntermediateResult)) (by
            rcases List.mem_map.mp hkey with ⟨g, hg, hgk⟩
            exact absurd (hAkeys_sub f.1 hmem)
              (fun hc => hfreshF g hg (by rw [hgk]; exact hc))) hmem
        · rw [hsFkeys]
          exact hnkF
      have hAprops : ∀ e ∈ A, e ∈ i2 ∧ e.1 ∈ akeys iter := by
        intro e he
        have hei2 : e ∈ i2 := hsubA.subset he
        refine ⟨hei2, ?_⟩
        have hkeymem : e.1 ∈ akeys i2 := List.mem_map.mpr ⟨e, hei2, rfl⟩
        rw [hkeys2] at hkeymem
        have hkey : e.1 ∈ last_ids := (hkl e.1).mp hkeymem
        rw [hA, drop_discontinued] at he
        have hp3 := (List.mem_filter.mp he).2
        simp [List.contains] at hp3
        rcases hp3 with hp3 | hp3
        · exact absurd hkey hp3
        · exact hp3
      have hL01 : chunks.length ≤ cF.length := hlen1
      have hnFbound : ∀ f ∈ nF, ∀ i ∈ f.2.output_chunks_indexes, i < c2.length := by
        intro f hf i hi
        rcases mem_dropLast_or_last _ (hshF f hf).1 i hi with hi2 | hi2
        · have := (hshF f hf).2.1 i hi2
          omega
        · rw [hi2]
          have h4 := (hshF f hf).2.2.2
          rw [lastIdx] at h4
          omega
      have hBound4 : BoundOk c2 (A ++ nF) := by
        intro e he
        rcases List.mem_append.mp he with he | he
        · exact hb2 e (hAprops e he).1
        · exact ⟨(hshF e he).1, hnFbound e he⟩
      have hFrozen4 : Frozen (A ++ nF) := by
        constructor
        · intro e he f hf hmemq
          rcases List.mem_append.mp he with he | he
          · rcases List.mem_append.mp hf with hf | hf
            · exact hfr2.1 e (hAprops e he).1 f (hAprops f hf).1 hmemq
            · rcases hlinkF f hf with h0 | ⟨p, hpmem, hpfF, hpeq⟩
              · rw [h0] at hmemq
                exact List.not_mem_nil _ hmemq
              · rw [hpeq] at hmemq
                have hei2 := (hAprops e he).1
                rcases hilo2 e hei2 with hlo | hlo
                · rcases hevo2 e hei2 with ⟨ir0, hir0, heq | hmod⟩
                  · by_cases hep : e.1 = p.1
                    · have := hpf2 e hei2 (hAprops e he).2 (by rw [hep]; exact hpfF)
                      omega
                    · have hnm := frozen_last_not_mem inter hfr (e.1, ir0) p hir0
                        hpmem hep (hb p hpmem).1
                      rw [show lastIdx (e.1, ir0).2 = lastIdx ir0 from rfl] at hnm
                      rw [heq] at hmemq
                      exact hnm hmemq
                  · omega
                · have := (hb p hpmem).2 _ hmemq
                  omega
          · rcases List.mem_append.mp hf with hf | hf
            · have h4 := (hshF e he).2.2.1
              have hfi2 := (hAprops f hf).1
              rcases hevo2 f hfi2 with ⟨ir0, hir0, heq | hmod⟩
              · have hsub : ir0.output_chunks_indexes.dropLast.Sublist
                    ir0.output_chunks_indexes := List.dropLast_sublist _
                rw [heq] at hmemq
                have := (hb (f.1, ir0) hir0).2 _ (hsub.subset hmemq)
                omega
              · rcases hmod with ⟨hmod1, hmod2⟩
                rw [hmod2, List.dropLast_concat] at hmemq
                have := (hb (f.1, ir0) hir0).2 _ hmemq
                omega
            · have h4 := (hshF e he).2.2.1
              have h5 := (hshF f hf).2.1 _ hmemq
              omega
        · intro e he f hf hne
          rcases List.mem_append.mp he with he | he
          · rcases List.mem_append.mp hf with hf | hf
            · exact hfr2.2 e (hAprops e he).1 f (hAprops f hf).1 hne
            · have h4 := (hshF f hf).2.2.1
              have h5 := (hshF f hf).2.2.2
              rcases hilo2 e (hAprops e he).1 with hlo | hlo
              · omega
              · omega
          · rcases List.mem_append.mp hf with hf | hf
            · have h4 := (hshF e he).2.2.1
              have h5 := (hshF e he).2.2.2
              rcases hilo2 f (hAprops f hf).1 with hlo | hlo
              · omega
              · omega
            · exact hplF e he f hf hne
      have hnodup4 : (akeys (A ++ nF)).Nodup := by
        rw [akeys_append, List.nodup_append]
        refine ⟨hAnodup, hnkF, ?_⟩
        intro a ha hmem
        rcases List.mem_map.mp hmem with ⟨g, hg, hgk⟩
        exact hfreshF g hg (by rw [hgk]; exact hAkeys_sub a ha)
      have hnFkeys_iff : ∀ k, k ∈ akeys nF ↔
          (k ∈ akeys iter ∧ k ∉ akeys inter) := by
        intro k
        rw [hkeysF]
        simp only [akeys, List.map_nil, List.nil_append, List.mem_map,
          List.mem_filter]
        constructor
        · rintro ⟨e, ⟨hei, hec⟩, rfl⟩
          refine ⟨⟨e, hei, rfl⟩, ?_⟩
          have : acontains inter e.1 = false := by
            cases hca : acontains inter e.1
            · rfl
            · rw [hca] at hec
              simp at hec
          exact fun hex =>
            (acontains_false_iff inter e.1).mp this (List.mem_map.mpr hex)
        · rintro ⟨hki, hkn⟩
          rcases hki with ⟨e, hei, rfl⟩
          refine ⟨e, ⟨hei, ?_⟩, rfl⟩
          rw [(acontains_false_iff inter e.1).mpr
            (fun hmm => hkn (List.mem_map.mp hmm))]
          rfl
      have hkl4 : ∀ k, k ∈ akeys (A ++ nF) ↔ k ∈ akeys iter := by
        intro k
        rw [akeys_append, List.mem_append]
        constructor
        · rintro (hk | hk)
          · have := (akeys_drop_iff i2 last_ids (akeys iter) k).mp hk
            rcases this with ⟨hki2, hcond⟩
            rw [hkeys2] at hki2
            by_contra hnot
            exact hcond ⟨(hkl k).mp hki2, hnot⟩
          · exact ((hnFkeys_iff k).mp hk).1
        · intro hk
          by_cases hkin : k ∈ akeys inter
          · left
            refine (akeys_drop_iff i2 last_ids (akeys iter) k).mpr ⟨?_, ?_⟩
            · rw [hkeys2]
              exact hkin
            · intro hcond
              exact hcond.2 hk
          · right
            exact (hnFkeys_iff k).mpr ⟨hk, hkin⟩
      refine Or.inr ⟨⟨c2, insert_new A nF, akeys iter⟩,
        ⟨insert_new As sF, akeys iter⟩, rfl, rfl, ?_, ?_⟩
      · refine ⟨?_, ?_, ?_, ?_⟩
        · simp only
          rw [hins]
          exact hBound4
        · simp only
          rw [hins]
          exact hFrozen4
        · simp only
          rw [hins]
          exact hnodup4
        · intro k
          simp only
          rw [hins]
          exact hkl4 k
      · refine ⟨?_, rfl⟩
        simp only
        rw [hins, hinsS]
        exact List.rel_append hmA hmn2

/-- simulation of the whole read_all loop: from related states the two
models succeed or fail together and stay related. -/
theorem read_all_loop_sim :
    ∀ (iters : List Iteration) (st : ReadAllState) (sp : SpecState),
      StateInv st → Sim st sp → (∀ it ∈ iters, (akeys it).Nodup) →
      (read_all_loop iters st = none ∧ spec_read_all_loop iters sp = none) ∨
      (∃ st1 sp1, read_all_loop iters st = some st1 ∧
        spec_read_all_loop iters sp = some sp1 ∧ StateInv st1 ∧ Sim st1 sp1)
  | [], st, sp, hinv, hsim, _ => Or.inr ⟨st, sp, rfl, rfl, hinv, hsim⟩
  | iter :: rest, st, sp, hinv, hsim, hnd => by
    rw [read_all_loop, spec_read_all_loop]
    rcases process_iteration_sim st sp iter hinv hsim
        (hnd iter (List.mem_cons_self _ _)) with ⟨h1, h2⟩ |
        ⟨st1, sp1, h1, h2, hinv1, hsim1⟩
    · rw [h1, h2]
      exact Or.inl ⟨rfl, rfl⟩
    · rw [h1, h2]
      exact read_all_loop_sim rest st1 sp1 hinv1 hsim1
        (fun it hit => hnd it (List.mem_cons_of_mem _ hit))

end ReadAll

/-! ### C2 — read_all reconstruction -/

/-- C2 counterexample: on a single un-forked sequence whose cumulative log
probability grows from 5 to 7 across the two iterations, read_all reports
the value 5 recorded at the sequence's first appearance, not the final
cumulative log probability 7 of the sequence — the source never updates the
stored value after the record is created. -/
theorem read_all_log_prob_counterexample :
    ReadAll.read_all [[(1, ⟨10, 0, 5⟩)], [(1, ⟨20, 0, 7⟩)]]
        = some [([10, 20], 5)] ∧ (5 : ℤ) ≠ 7 :=
  ⟨by decide, by decide⟩

/-- C2 (amended): for every stream of iterations whose per-iteration key
sets are duplicate-free, read_all returns, for every sequence present in
the last iteration, the token list equal to the concatenation, in order, of
the output chunks along that sequence's parent chain — a forked child's
list starts with the parent's chunks up to the fork, then its own tokens —
paired with the cumulative log probability recorded when the sequence first
appeared (which the source never updates afterwards); this is exactly what
the specification-side model computes. -/
theorem read_all_matches_spec (iters : List ReadAll.Iteration)
    (h : ∀ it ∈ iters, (ReadAll.akeys it).Nodup) :
    ReadAll.read_all iters = ReadAll.spec_read_all iters := by
  rw [ReadAll.read_all, ReadAll.spec_read_all]
  have hinv0 : ReadAll.StateInv ⟨[], [], []⟩ := by
    unfold ReadAll.StateInv ReadAll.BoundOk ReadAll.Frozen ReadAll.akeys
    simp
  have hsim0 : ReadAll.Sim ⟨[], [], []⟩ ⟨[], []⟩ := ⟨List.Forall₂.nil, rfl⟩
  rcases ReadAll.read_all_loop_sim iters ⟨[], [], []⟩ ⟨[], []⟩ hinv0 hsim0 h with
    ⟨h1, h2⟩ | ⟨st1, sp1, h1, h2, _, hsim1⟩
  · rw [h1, h2]
    rfl
  · have hg := ReadAll.gather_matches st1.outputs_chunks
      st1.intermediate_results sp1.entries hsim1.1
    rw [h1, h2]
    simp only [Option.map_some', ReadAll.gather, hg]

/-- closed instance of read_all_matches_spec: a two-iteration trace with a
fork, whose key sets are duplicate-free; both models return the two stitched
sequences with their first-appearance log probabilities. -/
theorem read_all_matches_spec_witness :
    (∀ it ∈ ([[(1, ⟨10, 0, 5⟩)], [(1, ⟨20, 0, 6⟩), (2, ⟨30, 1, 8⟩)]] :
        List ReadAll.Iteration), (ReadAll.akeys it).Nodup) ∧
    ReadAll.read_all [[(1, ⟨10, 0, 5⟩)], [(1, ⟨20, 0, 6⟩), (2, ⟨30, 1, 8⟩)]]
        = ReadAll.spec_read_all
          [[(1, ⟨10, 0, 5⟩)], [(1, ⟨20, 0, 6⟩), (2, ⟨30, 1, 8⟩)]] ∧
    ReadAll.spec_read_all [[(1, ⟨10, 0, 5⟩)], [(1, ⟨20, 0, 6⟩), (2, ⟨30, 1, 8⟩)]]
        = some [([10, 20], 5), ([10, 30], 8)] :=
  ⟨by decide, read_all_matches_spec _ (by decide), by decide⟩
